import Mathlib

/-!
Verification of the contact-data normalization module `src/transforms.py`.

The Python module is shallowly embedded: strings are lists of characters
(`Str := List Char`), optional / nullable values are `Option`, and every
Python function becomes a total Lean function.  The embedding covers the
ASCII fragment of the Python string operations used by the module:
`str.strip`, `str.lower`, `str.split()`, `str.capitalize`,
`re.sub(r'\D', '', s)`, and `re.sub` with an `IGNORECASE`, `\b`-delimited
letter-only pattern.  Bounded recursions over strings are written with an
explicit structural fuel (initialized to the string length, which always
suffices), so that all definitions compute by kernel reduction.
-/

namespace Transforms

/-- Strings are modelled as lists of characters. -/
abbrev Str := List Char

/-- The character list of a string literal, for readable concrete inputs. -/
def str (s : String) : Str := s.data

/-- Python whitespace for `str.strip()` / `str.split()` (ASCII fragment):
space, tab, newline, vertical tab, form feed, carriage return. -/
def isWs (c : Char) : Bool :=
  decide (c.toNat = 32 ∨ c.toNat = 9 ∨ c.toNat = 10 ∨ c.toNat = 11 ∨
          c.toNat = 12 ∨ c.toNat = 13)

/-- Negation of `isWs`, the token class of Python `str.split()`. -/
def notWs (c : Char) : Bool := !isWs c

/-- ASCII decimal digit: the class kept by `re.sub(r'\D', '', s)`. -/
def isDig (c : Char) : Bool := decide (48 ≤ c.toNat ∧ c.toNat ≤ 57)

/-- ASCII word character (regex `\w`), the class whose edges are the `\b`
word boundaries: letters, digits and underscore. -/
def isWord (c : Char) : Bool :=
  decide ((48 ≤ c.toNat ∧ c.toNat ≤ 57) ∨ (65 ≤ c.toNat ∧ c.toNat ≤ 90) ∨
          (97 ≤ c.toNat ∧ c.toNat ≤ 122) ∨ c.toNat = 95)

/-- Python `str.lower()` (ASCII fragment), character by character. -/
def lowerS (s : Str) : Str := s.map Char.toLower

/-- Python `str.strip()`: remove leading and trailing whitespace. -/
def trim (s : Str) : Str :=
  ((s.dropWhile isWs).reverse.dropWhile isWs).reverse

/-- Fuel-driven worker for `splitWs`; fuel `≥` string length never runs out. -/
def splitGo : Nat → Str → List Str
  | _, [] => []
  | 0, _ :: _ => []
  | n + 1, c :: cs =>
    if isWs c then splitGo n cs
    else (c :: cs.takeWhile notWs) :: splitGo n (cs.dropWhile notWs)

/-- Python `str.split()` with no argument: the maximal runs of
non-whitespace characters, in order; empty pieces never occur. -/
def splitWs (s : Str) : List Str := splitGo s.length s

/-- Python `str.capitalize()` (ASCII fragment): first character uppercased,
all remaining characters lowercased. -/
def capPy : Str → Str
  | [] => []
  | c :: cs => Char.toUpper c :: cs.map Char.toLower

/-- Python `' '.join(tokens)`. -/
def joinSp : List Str → Str
  | [] => []
  | [t] => t
  | t :: ts => t ++ ' ' :: joinSp ts

/-- Word-boundary test for the position following a candidate match:
at end of string, or before a non-word character. -/
def noWordAhead : Str → Bool
  | [] => true
  | c :: _ => !isWord c

/-- Fuel-driven worker for `subB`.  `prev` records whether the character
immediately before the current position is a word character (`false` at the
start of the string), so `!prev` is exactly the `\b` test before a match of
a letter-only pattern. -/
def subGo (pat rep : Str) : Nat → Bool → Str → Str
  | _, _, [] => []
  | 0, _, s => s
  | n + 1, prev, c :: cs =>
    if !prev && (lowerS ((c :: cs).take pat.length) == lowerS pat)
        && noWordAhead ((c :: cs).drop pat.length) then
      rep ++ subGo pat rep n true ((c :: cs).drop pat.length)
    else
      c :: subGo pat rep n (isWord c) cs

/-- Model of `re.sub(r'\b…\b', rep, s, flags=re.IGNORECASE)` for a
letter-only pattern `pat`: scan left to right, replace every
case-insensitive occurrence of `pat` that is delimited by word boundaries,
and continue scanning after the matched text of the original string.
Because the pattern consists of letters, the leading `\b` holds exactly when
the previous character is not a word character, and after a match the
previous character is a letter, so the scan continues with `prev = true`. -/
def subB (pat rep s : Str) : Str := subGo pat rep s.length false s

/-- The ordered abbreviation table of `normalize_address`
(`transforms.py` lines 88-93), applied sequentially. -/
def expTab : List (Str × Str) :=
  [(str "St", str "Street"), (str "Ave", str "Avenue"), (str "Rd", str "Road"),
   (str "Dr", str "Drive"), (str "Ln", str "Lane"), (str "Way", str "Way")]

/-- The six `re.sub` calls of `normalize_address`, in source order. -/
def expand (t : Str) : Str := expTab.foldl (fun a pr => subB pr.1 pr.2 a) t

/-- `normalize_email` (`transforms.py` lines 9-29): `None` for absent input,
strip, `None` if the stripped string is empty, else lowercase.  (The source
performs no `@`/`.` validation.) -/
def normalize_email : Option Str → Option Str
  | none => none
  | some s =>
    let t := trim s
    if t = [] then none else some (lowerS t)

/-- The 11-digit format of `normalize_phone`:
`f"1-{digits[1:4]}-{digits[4:7]}-{digits[7:]}"`. -/
def fmt11 (d : Str) : Str :=
  '1' :: '-' :: ((d.drop 1).take 3 ++ '-' :: ((d.drop 4).take 3 ++ '-' :: d.drop 7))

/-- The 10-digit format of `normalize_phone`:
`f"({digits[0:3]}) {digits[3:6]}-{digits[6:]}"`. -/
def fmt10 (d : Str) : Str :=
  '(' :: (d.take 3 ++ ')' :: ' ' :: ((d.drop 3).take 3 ++ '-' :: d.drop 6))

/-- `normalize_phone` (`transforms.py` lines 32-64): `None` for absent or
whitespace-only input; otherwise keep only the digits and format 11-digit
numbers starting with `1` as `1-XXX-XXX-XXXX`, 10-digit numbers as
`(XXX) XXX-XXXX`, anything else as `None`. -/
def normalize_phone : Option Str → Option Str
  | none => none
  | some s =>
    let t := trim s
    if t = [] then none
    else
      let digits := t.filter isDig
      if digits.take 1 = ['1'] ∧ digits.length = 11 then some (fmt11 digits)
      else if digits.length = 10 then some (fmt10 digits)
      else none

/-- `normalize_address` (`transforms.py` lines 67-96): `None` for absent or
whitespace-only input; otherwise strip, apply the six whole-word
case-insensitive abbreviation expansions in order, split on whitespace,
capitalize each token, and rejoin with single spaces. -/
def normalize_address : Option Str → Option Str
  | none => none
  | some s =>
    let t := trim s
    if t = [] then none
    else some (joinSp ((splitWs (expand t)).map capPy))

/-- One row of `transform_contacts` (`transforms.py` lines 112-114): the
cells at the three target column positions are replaced by the
corresponding normalizer's result, sequentially (email, then phone, then
address), exactly as the three `df[col] = df[col].apply(…)` lines do. -/
def normRow (ie ip ia : Nat) (row : List (Option Str)) : List (Option Str) :=
  let r1 := row.set ie (normalize_email (row.getD ie none))
  let r2 := r1.set ip (normalize_phone (r1.getD ip none))
  r2.set ia (normalize_address (r2.getD ia none))

/-- The core of `transform_contacts` (`transforms.py` lines 99-122), with
the file I/O stripped away per the spec's scope: the table is a list of
rows, each row a list of optional cells, and `ie`, `ip`, `ia` are the
positions of the `email`, `phone_number` and `address` columns. -/
def transform_contacts (ie ip ia : Nat)
    (rows : List (List (Option Str))) : List (List (Option Str)) :=
  rows.map (normRow ie ip ia)

/-- Fuel-driven worker for `wordRuns`. -/
def runsGo : Nat → Str → List Str
  | _, [] => []
  | 0, _ :: _ => []
  | n + 1, c :: cs =>
    if isWord c then (c :: cs.takeWhile isWord) :: runsGo n (cs.dropWhile isWord)
    else runsGo n cs

/-- The maximal runs of word characters of a string, in order.  A match of
a `\b`-delimited letter-only pattern is exactly such a run that equals the
pattern case-insensitively. -/
def wordRuns (s : Str) : List Str := runsGo s.length s

/-- Replacement of a single word run: substituted when it equals the
pattern case-insensitively, kept otherwise. -/
def replRun (pat rep r : Str) : Str := if lowerS r = lowerS pat then rep else r

/-- Fuel-driven worker for `subW`. -/
def subWGo (pat rep : Str) : Nat → Str → Str
  | _, [] => []
  | 0, s => s
  | n + 1, c :: cs =>
    if isWord c then
      replRun pat rep (c :: cs.takeWhile isWord) ++ subWGo pat rep n (cs.dropWhile isWord)
    else c :: subWGo pat rep n cs

/-- Declarative formulation of the whole-word case-insensitive replacement
(the spec's wording): every maximal word run equal to the pattern up to
case is replaced, everything else is kept verbatim.  Proved equal to the
scanner model `subB` for letter-only patterns. -/
def subW (pat rep s : Str) : Str := subWGo pat rep s.length s

/-- The six whole-word expansions in the declarative formulation. -/
def expandW (t : Str) : Str := expTab.foldl (fun a pr => subW pr.1 pr.2 a) t

/-- The lowercased replacement words of the abbreviation table. -/
def goodLow : List Str :=
  [str "street", str "avenue", str "road", str "drive", str "lane", str "way"]

/-- The lowercased patterns of the abbreviation table. -/
def badLow : List Str :=
  [str "st", str "ave", str "rd", str "dr", str "ln", str "way"]

/-- A string all of whose (lowercased) word runs are either replacement
words of the table or match no pattern of the table.  Holds for every
output of the expansion stage and makes a second expansion pass a no-op up
to case. -/
def GoodL (x : Str) : Prop :=
  ∀ r ∈ wordRuns (lowerS x), r ∈ goodLow ∨ r ∉ badLow

/-- The subsequence of ASCII digits of an (optional) string; absence counts
as the empty digit string. -/
def digitsOf : Option Str → Str
  | none => []
  | some s => s.filter isDig

/-- The per-run effect of the six expansions on a single word run, in
source order. -/
def replChain (r : Str) : Str :=
  replRun (str "Way") (str "Way") (replRun (str "Ln") (str "Lane")
    (replRun (str "Dr") (str "Drive") (replRun (str "Rd") (str "Road")
      (replRun (str "Ave") (str "Avenue") (replRun (str "St") (str "Street") r)))))

/-- The phone result as a function of the digit subsequence alone. -/
def phoneOfDigits (d : Str) : Option Str :=
  if d.take 1 = ['1'] ∧ d.length = 11 then some (fmt11 d)
  else if d.length = 10 then some (fmt10 d)
  else none

end Transforms

namespace Transforms

theorem char_eq_of_toNat {a b : Char} (h : a.toNat = b.toNat) : a = b := by
  have h2 := congrArg Char.ofNat h
  rwa [Char.ofNat_toNat, Char.ofNat_toNat] at h2

theorem toNat_ofNatAux (n : Nat) (h : n.isValidChar) :
    (Char.ofNatAux n h).toNat = n := rfl

theorem toNat_ofNat_valid (n : Nat) (h : n < 55296) :
    (Char.ofNat n).toNat = n := by
  rw [Char.ofNat, dif_pos (Or.inl h)]
  exact toNat_ofNatAux n (Or.inl h)

theorem toLower_eq_ite (c : Char) :
    Char.toLower c =
      if c.toNat ≥ 65 ∧ c.toNat ≤ 90 then Char.ofNat (c.toNat + 32) else c := rfl

theorem toUpper_eq_ite (c : Char) :
    Char.toUpper c =
      if c.toNat ≥ 97 ∧ c.toNat ≤ 122 then Char.ofNat (c.toNat - 32) else c := rfl

theorem toNat_toLower (c : Char) :
    (Char.toLower c).toNat =
      if 65 ≤ c.toNat ∧ c.toNat ≤ 90 then c.toNat + 32 else c.toNat := by
  rw [toLower_eq_ite]
  by_cases h : 65 ≤ c.toNat ∧ c.toNat ≤ 90
  · rw [if_pos h, if_pos h]
    exact toNat_ofNat_valid _ (by omega)
  · rw [if_neg h, if_neg h]

theorem toNat_toUpper (c : Char) :
    (Char.toUpper c).toNat =
      if 97 ≤ c.toNat ∧ c.toNat ≤ 122 then c.toNat - 32 else c.toNat := by
  rw [toUpper_eq_ite]
  by_cases h : 97 ≤ c.toNat ∧ c.toNat ≤ 122
  · rw [if_pos h, if_pos h]
    exact toNat_ofNat_valid _ (by omega)
  · rw [if_neg h, if_neg h]

theorem isWord_toLower (c : Char) : isWord (Char.toLower c) = isWord c := by
  simp only [isWord, toNat_toLower, decide_eq_decide]
  split <;> omega

theorem isWord_toUpper (c : Char) : isWord (Char.toUpper c) = isWord c := by
  simp only [isWord, toNat_toUpper, decide_eq_decide]
  split <;> omega

theorem isWs_toLower (c : Char) : isWs (Char.toLower c) = isWs c := by
  simp only [isWs, toNat_toLower, decide_eq_decide]
  split <;> omega

theorem isWs_toUpper (c : Char) : isWs (Char.toUpper c) = isWs c := by
  simp only [isWs, toNat_toUpper, decide_eq_decide]
  split <;> omega

theorem toLower_toLower (c : Char) :
    Char.toLower (Char.toLower c) = Char.toLower c := by
  apply char_eq_of_toNat
  rw [toNat_toLower (Char.toLower c), toNat_toLower c]
  split_ifs <;> omega

theorem toLower_toUpper (c : Char) :
    Char.toLower (Char.toUpper c) = Char.toLower c := by
  apply char_eq_of_toNat
  rw [toNat_toLower (Char.toUpper c), toNat_toUpper c, toNat_toLower c]
  split_ifs <;> omega

theorem toUpper_congr_of_toLower {a b : Char}
    (h : Char.toLower a = Char.toLower b) : Char.toUpper a = Char.toUpper b := by
  have hn : (Char.toLower a).toNat = (Char.toLower b).toNat := by rw [h]
  rw [toNat_toLower a, toNat_toLower b] at hn
  apply char_eq_of_toNat
  rw [toNat_toUpper a, toNat_toUpper b]
  split_ifs at hn ⊢ <;> omega

theorem not_isWs_of_isWord {c : Char} (h : isWord c = true) : isWs c = false := by
  simp only [isWord, decide_eq_true_eq] at h
  simp only [isWs, decide_eq_false_iff_not]
  omega

theorem not_isWs_of_isDig {c : Char} (h : isDig c = true) : isWs c = false := by
  simp only [isDig, decide_eq_true_eq] at h
  simp only [isWs, decide_eq_false_iff_not]
  omega

theorem isDig_toLower (c : Char) : isDig (Char.toLower c) = isDig c := by
  simp only [isDig, toNat_toLower, decide_eq_decide]
  split <;> omega

end Transforms

namespace Transforms

theorem head?_dropWhile_not {p : Char → Bool} {l : Str} {c : Char}
    (h : (l.dropWhile p).head? = some c) : p c = false := by
  induction l with
  | nil => simp at h
  | cons a as ih =>
    rw [List.dropWhile_cons] at h
    split at h
    · exact ih h
    · next hp =>
      simp only [List.head?_cons, Option.some.injEq] at h
      subst h
      simpa using hp

theorem getLast?_dropWhile {p : Char → Bool} {l : Str}
    (h : l.dropWhile p ≠ []) : (l.dropWhile p).getLast? = l.getLast? := by
  induction l with
  | nil => simp at h
  | cons a as ih =>
    by_cases hp : p a = true
    · have he : List.dropWhile p (a :: as) = List.dropWhile p as := by
        rw [List.dropWhile_cons, if_pos hp]
      rw [he] at h ⊢
      have has : as ≠ [] := by
        intro hnil
        rw [hnil] at h
        simp at h
      rw [ih h]
      cases as with
      | nil => cases has rfl
      | cons b bs => simp
    · have he : List.dropWhile p (a :: as) = a :: as := by
        rw [List.dropWhile_cons, if_neg hp]
      rw [he]

theorem mem_of_getLast? {l : Str} {c : Char} (h : l.getLast? = some c) : c ∈ l := by
  induction l with
  | nil => simp at h
  | cons a as ih =>
    cases as with
    | nil =>
      simp only [List.getLast?_singleton, Option.some.injEq] at h
      simp [h]
    | cons b bs =>
      rw [List.getLast?_cons_cons] at h
      exact List.mem_cons_of_mem _ (ih h)

theorem head?_trim_not_ws {s : Str} {c : Char}
    (h : (trim s).head? = some c) : isWs c = false := by
  unfold trim at h
  rw [List.head?_reverse] at h
  have hne : (s.dropWhile isWs).reverse.dropWhile isWs ≠ [] := by
    intro he
    rw [he] at h
    simp at h
  rw [getLast?_dropWhile hne, List.getLast?_reverse] at h
  exact head?_dropWhile_not h

theorem getLast?_trim_not_ws {s : Str} {c : Char}
    (h : (trim s).getLast? = some c) : isWs c = false := by
  unfold trim at h
  rw [List.getLast?_reverse] at h
  exact head?_dropWhile_not h

theorem trim_eq_self {v : Str}
    (h1 : ∀ c, v.head? = some c → isWs c = false)
    (h2 : ∀ c, v.getLast? = some c → isWs c = false) : trim v = v := by
  unfold trim
  have hd : v.dropWhile isWs = v := by
    cases v with
    | nil => rfl
    | cons a as =>
      rw [List.dropWhile_cons, if_neg]
      simp [h1 a rfl]
  rw [hd]
  have hr : v.reverse.dropWhile isWs = v.reverse := by
    cases hv : v.reverse with
    | nil => simp [hv]
    | cons a as =>
      have ha : v.getLast? = some a := by
        rw [← List.head?_reverse, hv]
        rfl
      rw [List.dropWhile_cons, if_neg]
      simp [h2 a ha]
  rw [hr, List.reverse_reverse]

theorem all_ws_of_trim_nil {s : Str} (h : trim s = []) :
    ∀ c ∈ s, isWs c = true := by
  unfold trim at h
  rw [List.reverse_eq_nil_iff] at h
  have h2 : ∀ c ∈ (s.dropWhile isWs).reverse, isWs c = true :=
    List.dropWhile_eq_nil_iff.mp h
  intro c hc
  have hc2 : c ∈ s.takeWhile isWs ++ s.dropWhile isWs := by
    rw [List.takeWhile_append_dropWhile]
    exact hc
  rcases List.mem_append.mp hc2 with h3 | h3
  · exact List.mem_takeWhile_imp h3
  · exact h2 c (List.mem_reverse.mpr h3)

theorem filter_dropWhile_ws {p : Char → Bool}
    (hp : ∀ c, isWs c = true → p c = false) (l : Str) :
    (l.dropWhile isWs).filter p = l.filter p := by
  conv_rhs => rw [← List.takeWhile_append_dropWhile isWs l]
  rw [List.filter_append]
  have ht : (l.takeWhile isWs).filter p = [] := by
    rw [List.filter_eq_nil_iff]
    intro a ha
    simp [hp a (List.mem_takeWhile_imp ha)]
  rw [ht, List.nil_append]

theorem filter_trim {p : Char → Bool}
    (hp : ∀ c, isWs c = true → p c = false) (s : Str) :
    (trim s).filter p = s.filter p := by
  unfold trim
  rw [List.filter_reverse, filter_dropWhile_ws hp, List.filter_reverse,
    List.reverse_reverse, filter_dropWhile_ws hp]

theorem not_isDig_of_isWs {c : Char} (h : isWs c = true) : isDig c = false := by
  simp only [isWs, decide_eq_true_eq] at h
  simp only [isDig, decide_eq_false_iff_not]
  omega

theorem lowerS_lowerS (u : Str) : lowerS (lowerS u) = lowerS u := by
  unfold lowerS
  rw [List.map_map]
  exact List.map_congr_left fun a _ => toLower_toLower a

end Transforms

namespace Transforms

theorem normalize_phone_eq (x : Option Str) :
    normalize_phone x = phoneOfDigits (digitsOf x) := by
  cases x with
  | none => rfl
  | some s =>
    by_cases ht : trim s = []
    · have hfil : s.filter isDig = [] := by
        rw [List.filter_eq_nil_iff]
        intro c hc
        simp [not_isDig_of_isWs (all_ws_of_trim_nil ht c hc)]
      simp [normalize_phone, digitsOf, phoneOfDigits, ht, hfil]
    · have hft := filter_trim (fun c h => not_isDig_of_isWs h) s
      simp only [normalize_phone, digitsOf, phoneOfDigits, if_neg ht, hft]

theorem filter_fmt10 {d : Str} (hd : ∀ c ∈ d, isDig c = true) :
    (fmt10 d).filter isDig = d := by
  have ht3 : (d.take 3).filter isDig = d.take 3 :=
    List.filter_eq_self.mpr fun a ha => hd a (List.mem_of_mem_take ha)
  have h33 : ((d.drop 3).take 3).filter isDig = (d.drop 3).take 3 :=
    List.filter_eq_self.mpr fun a ha =>
      hd a (List.mem_of_mem_drop (List.mem_of_mem_take ha))
  have h6 : (d.drop 6).filter isDig = d.drop 6 :=
    List.filter_eq_self.mpr fun a ha => hd a (List.mem_of_mem_drop ha)
  have hdd : (d.drop 3).take 3 ++ d.drop 6 = d.drop 3 := by
    have h63 : (d.drop 3).drop 3 = d.drop 6 := by
      rw [List.drop_drop]
    rw [← h63, List.take_append_drop]
  unfold fmt10
  rw [List.filter_cons_of_neg (by decide), List.filter_append, ht3,
    List.filter_cons_of_neg (by decide), List.filter_cons_of_neg (by decide),
    List.filter_append, h33, List.filter_cons_of_neg (by decide), h6,
    ← List.append_assoc, List.append_assoc, hdd, List.take_append_drop]

theorem filter_fmt11 {d : Str} (hd : ∀ c ∈ d, isDig c = true)
    (h1 : d.take 1 = ['1']) : (fmt11 d).filter isDig = d := by
  have ht3 : ((d.drop 1).take 3).filter isDig = (d.drop 1).take 3 :=
    List.filter_eq_self.mpr fun a ha =>
      hd a (List.mem_of_mem_drop (List.mem_of_mem_take ha))
  have h43 : ((d.drop 4).take 3).filter isDig = (d.drop 4).take 3 :=
    List.filter_eq_self.mpr fun a ha =>
      hd a (List.mem_of_mem_drop (List.mem_of_mem_take ha))
  have h7 : (d.drop 7).filter isDig = d.drop 7 :=
    List.filter_eq_self.mpr fun a ha => hd a (List.mem_of_mem_drop ha)
  have hdd : (d.drop 4).take 3 ++ d.drop 7 = d.drop 4 := by
    have h74 : (d.drop 4).drop 3 = d.drop 7 := by
      rw [List.drop_drop]
    rw [← h74, List.take_append_drop]
  have hdd2 : (d.drop 1).take 3 ++ d.drop 4 = d.drop 1 := by
    have h41 : (d.drop 1).drop 3 = d.drop 4 := by
      rw [List.drop_drop]
    rw [← h41, List.take_append_drop]
  unfold fmt11
  rw [List.filter_cons_of_pos (by decide), List.filter_cons_of_neg (by decide),
    List.filter_append, ht3, List.filter_cons_of_neg (by decide),
    List.filter_append, h43, List.filter_cons_of_neg (by decide), h7,
    ← List.append_assoc, List.append_assoc, hdd, hdd2]
  conv_rhs => rw [← List.take_append_drop 1 d, h1]
  rfl

theorem getLast?_some_of_ne_nil {l : Str} (h : l ≠ []) :
    ∃ c, l.getLast? = some c := by
  cases l with
  | nil => cases h rfl
  | cons a as => exact ⟨(a :: as).getLast (by simp), List.getLast?_eq_getLast _ _⟩

theorem getLast?_fmt10 {d : Str} (hl : d.length = 10) :
    ∃ c, (fmt10 d).getLast? = some c ∧ c ∈ d := by
  have h6 : d.drop 6 ≠ [] := by
    intro h
    have := congrArg List.length h
    simp [hl] at this
  obtain ⟨c, hc⟩ := getLast?_some_of_ne_nil h6
  refine ⟨c, ?_, List.mem_of_mem_drop (mem_of_getLast? hc)⟩
  have hsplit : fmt10 d =
      ('(' :: (d.take 3 ++ ')' :: ' ' :: ((d.drop 3).take 3 ++ ['-']))) ++ d.drop 6 := by
    simp [fmt10]
  rw [hsplit, List.getLast?_append, hc]
  rfl

theorem getLast?_fmt11 {d : Str} (hl : d.length = 11) :
    ∃ c, (fmt11 d).getLast? = some c ∧ c ∈ d := by
  have h7 : d.drop 7 ≠ [] := by
    intro h
    have := congrArg List.length h
    simp [hl] at this
  obtain ⟨c, hc⟩ := getLast?_some_of_ne_nil h7
  refine ⟨c, ?_, List.mem_of_mem_drop (mem_of_getLast? hc)⟩
  have hsplit : fmt11 d =
      ('1' :: '-' :: ((d.drop 1).take 3 ++ '-' :: ((d.drop 4).take 3 ++ ['-']))) ++ d.drop 7 := by
    simp [fmt11]
  rw [hsplit, List.getLast?_append, hc]
  rfl

theorem phone_idem (x : Option Str) (v : Str)
    (h : normalize_phone x = some v) : normalize_phone (some v) = some v := by
  rw [normalize_phone_eq] at h
  have hdall : ∀ c ∈ digitsOf x, isDig c = true := by
    cases x with
    | none => intro c hc; cases hc
    | some s => intro c hc; exact List.of_mem_filter hc
  unfold phoneOfDigits at h
  by_cases h11 : (digitsOf x).take 1 = ['1'] ∧ (digitsOf x).length = 11
  · rw [if_pos h11] at h
    have hv : v = fmt11 (digitsOf x) := by
      injection h with h2
      exact h2.symm
    subst hv
    obtain ⟨cl, hcl, hclmem⟩ := getLast?_fmt11 h11.2
    have htr : trim (fmt11 (digitsOf x)) = fmt11 (digitsOf x) := by
      apply trim_eq_self
      · intro c hc
        have hce : c = '1' := by
          rw [show (fmt11 (digitsOf x)).head? = some '1' from rfl] at hc
          injection hc with h2
          exact h2.symm
        subst hce
        decide
      · intro c hc
        rw [hcl] at hc
        injection hc with h2
        exact h2 ▸ not_isWs_of_isDig (hdall cl hclmem)
    have hne : fmt11 (digitsOf x) ≠ [] := by simp [fmt11]
    simp only [normalize_phone, htr, if_neg hne,
      filter_fmt11 hdall h11.1, if_pos h11]
  · rw [if_neg h11] at h
    by_cases h10 : (digitsOf x).length = 10
    · rw [if_pos h10] at h
      have hv : v = fmt10 (digitsOf x) := by
        injection h with h2
        exact h2.symm
      subst hv
      obtain ⟨cl, hcl, hclmem⟩ := getLast?_fmt10 h10
      have htr : trim (fmt10 (digitsOf x)) = fmt10 (digitsOf x) := by
        apply trim_eq_self
        · intro c hc
          have hce : c = '(' := by
            rw [show (fmt10 (digitsOf x)).head? = some '(' from rfl] at hc
            injection hc with h2
            exact h2.symm
          subst hce
          decide
        · intro c hc
          rw [hcl] at hc
          injection hc with h2
          exact h2 ▸ not_isWs_of_isDig (hdall cl hclmem)
      have hne : fmt10 (digitsOf x) ≠ [] := by simp [fmt10]
      have hn11 : ¬(List.take 1 (digitsOf x) = ['1'] ∧
          List.length (digitsOf x) = 11) := by
        intro hco
        omega
      simp only [normalize_phone, htr, if_neg hne, filter_fmt10 hdall,
        if_neg hn11, if_pos h10]
    · rw [if_neg h10] at h
      cases h

theorem email_idem (x : Option Str) (v : Str)
    (h : normalize_email x = some v) : normalize_email (some v) = some v := by
  cases x with
  | none => cases h
  | some s =>
    simp only [normalize_email] at h
    by_cases ht : trim s = []
    · rw [if_pos ht] at h
      cases h
    · rw [if_neg ht] at h
      have hv : v = lowerS (trim s) := by
        injection h with h'
        exact h'.symm
      subst hv
      have htv : trim (lowerS (trim s)) = lowerS (trim s) := by
        apply trim_eq_self
        · intro c hc
          rw [lowerS, List.head?_map] at hc
          cases hh : (trim s).head? with
          | none => rw [hh] at hc; cases hc
          | some c0 =>
            rw [hh] at hc
            injection hc with h'
            rw [← h', isWs_toLower]
            exact head?_trim_not_ws hh
        · intro c hc
          rw [lowerS, List.getLast?_map] at hc
          cases hh : (trim s).getLast? with
          | none => rw [hh] at hc; cases hc
          | some c0 =>
            rw [hh] at hc
            injection hc with h'
            rw [← h', isWs_toLower]
            exact getLast?_trim_not_ws hh
      have hne : lowerS (trim s) ≠ [] := by
        simp only [lowerS, ne_eq, List.map_eq_nil_iff]
        exact ht
      simp only [normalize_email, htv, if_neg hne, lowerS_lowerS]

end Transforms

namespace Transforms

/-- C1: the claim states that `normalize_email` validates its input (at
least one `@` and one `.`) and returns absence for `"not-an-email"` and
`"user@host"`.  The code performs no such validation: on both inputs it
returns the lowercased trimmed string, contradicting the claim and the
repository's own test documentation. -/
theorem claim_C1_email_unvalidated :
    normalize_email (some (str "not-an-email")) = some (str "not-an-email") ∧
    normalize_email (some (str "user@host")) = some (str "user@host") := by
  constructor
  · rfl
  · rfl

/-- C2: the claim states that a 10-digit input yields the bare digit
string, e.g. `normalize_phone "(555) 123-4567" = "5551234567"`.  The code
instead formats the result as `(XXX) XXX-XXXX`, contradicting the claim
and the repository's own test documentation. -/
theorem claim_C2_phone_formats_ten :
    normalize_phone (some (str "(555) 123-4567")) = some (str "(555) 123-4567") ∧
    normalize_phone (some (str "(555) 123-4567")) ≠ some (str "5551234567") := by
  constructor
  · rfl
  · decide

/-- C3: the claim states that an 11-digit input with leading `1` drops the
`1` and yields the remaining 10 digits, e.g.
`normalize_phone "1-555-123-4569" = "5551234569"`.  The code instead keeps
the leading `1` and formats the result as `1-XXX-XXX-XXXX`, contradicting
the claim and the repository's own test documentation. -/
theorem claim_C3_phone_keeps_country_code :
    normalize_phone (some (str "1-555-123-4569")) = some (str "1-555-123-4569") ∧
    normalize_phone (some (str "1-555-123-4569")) ≠ some (str "5551234569") := by
  constructor
  · rfl
  · decide

/-- C4: for every input whose ASCII-digit subsequence has a digit count
other than 10 and other than 11-with-leading-`1`, `normalize_phone`
returns absence. -/
theorem claim_C4_phone_invalid_counts (x : Option Str)
    (h10 : (digitsOf x).length ≠ 10)
    (h11 : ¬((digitsOf x).take 1 = ['1'] ∧ (digitsOf x).length = 11)) :
    normalize_phone x = none := by
  rw [normalize_phone_eq]
  unfold phoneOfDigits
  rw [if_neg h11, if_neg h10]

/-- Witness for C4 at the concrete 5-digit input `"12345"`. -/
theorem claim_C4_witness :
    (digitsOf (some (str "12345"))).length ≠ 10 ∧
    ¬((digitsOf (some (str "12345"))).take 1 = ['1'] ∧
      (digitsOf (some (str "12345"))).length = 11) ∧
    normalize_phone (some (str "12345")) = none :=
  ⟨by decide, by decide, claim_C4_phone_invalid_counts _ (by decide) (by decide)⟩

/-- C6: each normalizer maps `None`, the empty string and a
whitespace-only string to absence. -/
theorem claim_C6_absence_propagation :
    normalize_email none = none ∧
    normalize_email (some (str "")) = none ∧
    normalize_email (some (str "   ")) = none ∧
    normalize_phone none = none ∧
    normalize_phone (some (str "")) = none ∧
    normalize_phone (some (str "   ")) = none ∧
    normalize_address none = none ∧
    normalize_address (some (str "")) = none ∧
    normalize_address (some (str "   ")) = none := by
  refine ⟨rfl, rfl, by decide, rfl, rfl, by decide, rfl, rfl, by decide⟩

/-- C8: the three normalizers are total: every input produces either a
normalized string or absence.  The embedding makes exception-freedom and
termination structural: each function is accepted by Lean as a total
function into `Option Str`, and no operation of the source (slicing,
regex substitution, string methods) has a raising branch to model. -/
theorem claim_C8_totality (x : Option Str) :
    (normalize_email x = none ∨ ∃ v, normalize_email x = some v) ∧
    (normalize_phone x = none ∨ ∃ v, normalize_phone x = some v) ∧
    (normalize_address x = none ∨ ∃ v, normalize_address x = some v) := by
  refine ⟨?_, ?_, ?_⟩
  · cases he : normalize_email x with
    | none => exact Or.inl rfl
    | some v => exact Or.inr ⟨v, rfl⟩
  · cases he : normalize_phone x with
    | none => exact Or.inl rfl
    | some v => exact Or.inr ⟨v, rfl⟩
  · cases he : normalize_address x with
    | none => exact Or.inl rfl
    | some v => exact Or.inr ⟨v, rfl⟩

/-- C10: the result of `normalize_phone` depends only on the subsequence
of ASCII digits of the input (absence counting as the empty subsequence). -/
theorem claim_C10_digits_determine (x y : Option Str)
    (h : digitsOf x = digitsOf y) : normalize_phone x = normalize_phone y := by
  rw [normalize_phone_eq, normalize_phone_eq, h]

/-- Witness for C10 at a concrete pair of inputs with equal digit
subsequences but different punctuation, letters and whitespace. -/
theorem claim_C10_witness :
    digitsOf (some (str "555-123-4568")) = digitsOf (some (str "aa (555) 1234568zz")) ∧
    normalize_phone (some (str "555-123-4568")) =
      normalize_phone (some (str "aa (555) 1234568zz")) :=
  ⟨by decide, claim_C10_digits_determine _ _ (by decide)⟩

end Transforms

namespace Transforms

/-- C9: for a table of N rows with distinct `email`, `phone_number` and
`address` column positions, the pipeline keeps the number of rows, keeps
every non-target cell (hence the column order) unchanged, and replaces
each target cell by the corresponding normalizer applied to the input
cell. -/
theorem claim_C9_pipeline_frame (ie ip ia : Nat) (rows : List (List (Option Str)))
    (hep : ie ≠ ip) (hea : ie ≠ ia) (hpa : ip ≠ ia) :
    (transform_contacts ie ip ia rows).length = rows.length ∧
    ∀ (i : Nat) (row : List (Option Str)), rows[i]? = some row →
      (transform_contacts ie ip ia rows)[i]? = some (normRow ie ip ia row) ∧
      (normRow ie ip ia row).length = row.length ∧
      (∀ j, j ≠ ie → j ≠ ip → j ≠ ia →
        (normRow ie ip ia row)[j]? = row[j]?) ∧
      (ie < row.length →
        (normRow ie ip ia row)[ie]? = some (normalize_email (row.getD ie none))) ∧
      (ip < row.length →
        (normRow ie ip ia row)[ip]? = some (normalize_phone (row.getD ip none))) ∧
      (ia < row.length →
        (normRow ie ip ia row)[ia]? = some (normalize_address (row.getD ia none))) := by
  constructor
  · simp [transform_contacts]
  · intro i row hrow
    have hgd_ip : (row.set ie (normalize_email (row.getD ie none))).getD ip none
        = row.getD ip none := by
      simp [List.getD_eq_getElem?_getD, List.getElem?_set_ne hep]
    have hgd_ia : ((row.set ie (normalize_email (row.getD ie none))).set ip
          (normalize_phone (row.getD ip none))).getD ia none = row.getD ia none := by
      simp [List.getD_eq_getElem?_getD, List.getElem?_set_ne hpa,
        List.getElem?_set_ne hea]
    refine ⟨?_, ?_, ?_, ?_, ?_, ?_⟩
    · simp [transform_contacts, hrow]
    · simp [normRow]
    · intro j hje hjp hja
      simp only [normRow]
      rw [List.getElem?_set_ne (Ne.symm hja), List.getElem?_set_ne (Ne.symm hjp),
        List.getElem?_set_ne (Ne.symm hje)]
    · intro hie
      simp only [normRow]
      rw [List.getElem?_set_ne (Ne.symm hea), List.getElem?_set_ne (Ne.symm hep),
        List.getElem?_set_self hie]
    · intro hip
      simp only [normRow]
      rw [hgd_ip, List.getElem?_set_ne (Ne.symm hpa)]
      rw [List.getElem?_set_self (by simpa using hip)]
    · intro hia
      simp only [normRow]
      rw [hgd_ip, hgd_ia]
      rw [List.getElem?_set_self (by simpa using hia)]

/-- Witness for C9 on a concrete one-row table with a fourth, untouched
column; the first conjunct also evaluates the full pipeline end to end. -/
theorem claim_C9_witness :
    transform_contacts 0 1 2
        [[some (str " A@B.c "), some (str "555-123-4568"),
          some (str "123 main st"), some (str "bob")]]
      = [[some (str "a@b.c"), some (str "(555) 123-4568"),
          some (str "123 Main Street"), some (str "bob")]] ∧
    (normRow 0 1 2 [some (str " A@B.c "), some (str "555-123-4568"),
          some (str "123 main st"), some (str "bob")])[3]?
      = some (some (str "bob")) := by
  refine ⟨by decide, ?_⟩
  have h := ((claim_C9_pipeline_frame 0 1 2
      [[some (str " A@B.c "), some (str "555-123-4568"),
        some (str "123 main st"), some (str "bob")]]
      (by decide) (by decide) (by decide)).2 0
      [some (str " A@B.c "), some (str "555-123-4568"),
        some (str "123 main st"), some (str "bob")]
      (by decide)).2.2.1 3 (by decide) (by decide) (by decide)
  rw [h]
  decide

end Transforms

namespace Transforms

theorem len_dropWhile_le (p : Char → Bool) (l : Str) :
    (l.dropWhile p).length ≤ l.length := by
  induction l with
  | nil => simp
  | cons c cs ih =>
    by_cases h : p c = true
    · rw [List.dropWhile_cons_of_pos h]
      exact Nat.le_trans ih (Nat.le_succ _)
    · rw [List.dropWhile_cons_of_neg h]

theorem splitGo_congr : ∀ (n m : Nat) (s : Str), s.length ≤ n → s.length ≤ m →
    splitGo n s = splitGo m s := by
  intro n
  induction n with
  | zero =>
    intro m s hn _
    cases s with
    | nil => cases m <;> rfl
    | cons c cs => simp at hn
  | succ n ih =>
    intro m s hn hm
    cases s with
    | nil => cases m <;> rfl
    | cons c cs =>
      cases m with
      | zero => simp at hm
      | succ m =>
        simp only [List.length_cons] at hn hm
        simp only [splitGo]
        by_cases hc : isWs c = true
        · rw [if_pos hc, if_pos hc]
          exact ih m cs (by omega) (by omega)
        · rw [if_neg hc, if_neg hc]
          have h1 : (cs.dropWhile notWs).length ≤ n :=
            Nat.le_trans (len_dropWhile_le _ _) (by omega)
          have h2 : (cs.dropWhile notWs).length ≤ m :=
            Nat.le_trans (len_dropWhile_le _ _) (by omega)
          rw [ih m _ h1 h2]

theorem runsGo_congr : ∀ (n m : Nat) (s : Str), s.length ≤ n → s.length ≤ m →
    runsGo n s = runsGo m s := by
  intro n
  induction n with
  | zero =>
    intro m s hn _
    cases s with
    | nil => cases m <;> rfl
    | cons c cs => simp at hn
  | succ n ih =>
    intro m s hn hm
    cases s with
    | nil => cases m <;> rfl
    | cons c cs =>
      cases m with
      | zero => simp at hm
      | succ m =>
        simp only [List.length_cons] at hn hm
        simp only [runsGo]
        by_cases hc : isWord c = true
        · rw [if_pos hc, if_pos hc]
          have h1 : (cs.dropWhile isWord).length ≤ n :=
            Nat.le_trans (len_dropWhile_le _ _) (by omega)
          have h2 : (cs.dropWhile isWord).length ≤ m :=
            Nat.le_trans (len_dropWhile_le _ _) (by omega)
          rw [ih m _ h1 h2]
        · rw [if_neg hc, if_neg hc]
          exact ih m cs (by omega) (by omega)

theorem subWGo_congr (pat rep : Str) :
    ∀ (n m : Nat) (s : Str), s.length ≤ n → s.length ≤ m →
    subWGo pat rep n s = subWGo pat rep m s := by
  intro n
  induction n with
  | zero =>
    intro m s hn _
    cases s with
    | nil => cases m <;> rfl
    | cons c cs => simp at hn
  | succ n ih =>
    intro m s hn hm
    cases s with
    | nil => cases m <;> rfl
    | cons c cs =>
      cases m with
      | zero => simp at hm
      | succ m =>
        simp only [List.length_cons] at hn hm
        simp only [subWGo]
        by_cases hc : isWord c = true
        · rw [if_pos hc, if_pos hc]
          have h1 : (cs.dropWhile isWord).length ≤ n :=
            Nat.le_trans (len_dropWhile_le _ _) (by omega)
          have h2 : (cs.dropWhile isWord).length ≤ m :=
            Nat.le_trans (len_dropWhile_le _ _) (by omega)
          rw [ih m _ h1 h2]
        · rw [if_neg hc, if_neg hc]
          rw [ih m cs (by omega) (by omega)]

theorem subGo_congr (pat rep : Str) (hpat : pat ≠ []) :
    ∀ (n m : Nat) (prev : Bool) (s : Str), s.length ≤ n → s.length ≤ m →
    subGo pat rep n prev s = subGo pat rep m prev s := by
  intro n
  induction n with
  | zero =>
    intro m prev s hn _
    cases s with
    | nil => cases m <;> rfl
    | cons c cs => simp at hn
  | succ n ih =>
    intro m prev s hn hm
    cases s with
    | nil => cases m <;> rfl
    | cons c cs =>
      cases m with
      | zero => simp at hm
      | succ m =>
        simp only [List.length_cons] at hn hm
        have hp1 : 1 ≤ pat.length := by
          cases pat with
          | nil => cases hpat rfl
          | cons p ps => simp
        simp only [subGo]
        by_cases hcond : (!prev && (lowerS ((c :: cs).take pat.length) == lowerS pat)
            && noWordAhead ((c :: cs).drop pat.length)) = true
        · rw [if_pos hcond, if_pos hcond]
          have hlen : ((c :: cs).drop pat.length).length ≤ cs.length := by
            rw [List.length_drop]
            simp only [List.length_cons]
            omega
          congr 1
          exact ih m true _ (by omega) (by omega)
        · rw [if_neg hcond, if_neg hcond]
          congr 1
          exact ih m (isWord c) cs (by omega) (by omega)

theorem splitWs_nil : splitWs [] = [] := rfl

theorem splitWs_cons_ws {c : Char} {cs : Str} (h : isWs c = true) :
    splitWs (c :: cs) = splitWs cs := by
  show splitGo (c :: cs).length (c :: cs) = splitGo cs.length cs
  simp only [List.length_cons, splitGo, if_pos h]

theorem splitWs_cons_tok {c : Char} {cs : Str} (h : isWs c = false) :
    splitWs (c :: cs) =
      (c :: cs.takeWhile notWs) :: splitWs (cs.dropWhile notWs) := by
  show splitGo (c :: cs).length (c :: cs) = _
  simp only [List.length_cons, splitGo]
  rw [if_neg (by simp [h])]
  congr 1
  exact splitGo_congr _ _ _ (len_dropWhile_le _ _) le_rfl

theorem wordRuns_nil : wordRuns [] = [] := rfl

theorem wordRuns_cons_w {c : Char} {cs : Str} (h : isWord c = true) :
    wordRuns (c :: cs) =
      (c :: cs.takeWhile isWord) :: wordRuns (cs.dropWhile isWord) := by
  show runsGo (c :: cs).length (c :: cs) = _
  simp only [List.length_cons, runsGo]
  rw [if_pos h]
  congr 1
  exact runsGo_congr _ _ _ (len_dropWhile_le _ _) le_rfl

theorem wordRuns_cons_nw {c : Char} {cs : Str} (h : isWord c = false) :
    wordRuns (c :: cs) = wordRuns cs := by
  show runsGo (c :: cs).length (c :: cs) = runsGo cs.length cs
  simp only [List.length_cons, runsGo]
  rw [if_neg (by simp [h])]

theorem subW_nil (pat rep : Str) : subW pat rep [] = [] := rfl

theorem subW_cons_w {c : Char} {cs pat rep : Str} (h : isWord c = true) :
    subW pat rep (c :: cs) =
      replRun pat rep (c :: cs.takeWhile isWord) ++
        subW pat rep (cs.dropWhile isWord) := by
  show subWGo pat rep (c :: cs).length (c :: cs) = _
  simp only [List.length_cons, subWGo]
  rw [if_pos h]
  congr 1
  exact subWGo_congr _ _ _ _ _ (len_dropWhile_le _ _) le_rfl

theorem subW_cons_nw {c : Char} {cs pat rep : Str} (h : isWord c = false) :
    subW pat rep (c :: cs) = c :: subW pat rep cs := by
  show subWGo pat rep (c :: cs).length (c :: cs) = _
  simp only [List.length_cons, subWGo]
  rw [if_neg (by simp [h])]
  rfl

end Transforms

namespace Transforms

theorem lowerS_length (s : Str) : (lowerS s).length = s.length := by
  simp [lowerS]

theorem isWord_all_of_lowerS_eq {T pat : Str}
    (hpw : ∀ c ∈ pat, isWord c = true) (h : lowerS T = lowerS pat) :
    ∀ c ∈ T, isWord c = true := by
  induction T generalizing pat with
  | nil => intro c hc; cases hc
  | cons c cs ih =>
    cases pat with
    | nil => simp [lowerS] at h
    | cons p ps =>
      simp only [lowerS, List.map_cons, List.cons.injEq] at h
      intro d hd
      rcases List.mem_cons.mp hd with rfl | hd2
      · have h3 : isWord (Char.toLower d) = isWord (Char.toLower p) := by rw [h.1]
        rw [isWord_toLower, isWord_toLower] at h3
        rw [h3]
        exact hpw p (List.mem_cons_self _ _)
      · exact ih (fun e he => hpw e (List.mem_cons_of_mem _ he)) h.2 d hd2

theorem subGo_step_nomatch_nw {pat rep : Str} (hpat : pat ≠ [])
    (hpw : ∀ c ∈ pat, isWord c = true) {c : Char} {cs : Str}
    (hc : isWord c = false) (n : Nat) (prev : Bool) :
    subGo pat rep (n + 1) prev (c :: cs) = c :: subGo pat rep n (isWord c) cs := by
  simp only [subGo]
  rw [if_neg]
  intro hcond
  simp only [Bool.and_eq_true, beq_iff_eq] at hcond
  obtain ⟨⟨hprev, heq⟩, hbound⟩ := hcond
  cases pat with
  | nil => cases hpat rfl
  | cons p ps =>
    simp only [List.length_cons, List.take_succ_cons, lowerS, List.map_cons,
      List.cons.injEq] at heq
    have h3 : isWord (Char.toLower c) = isWord (Char.toLower p) := by rw [heq.1]
    rw [isWord_toLower, isWord_toLower] at h3
    rw [hc] at h3
    have h4 := hpw p (List.mem_cons_self _ _)
    rw [← h3] at h4
    cases h4

theorem subGo_step_prev_true (pat rep : Str) (n : Nat) (c : Char) (cs : Str) :
    subGo pat rep (n + 1) true (c :: cs) = c :: subGo pat rep n (isWord c) cs := by
  simp [subGo]

theorem subGo_walk (pat rep : Str) :
    ∀ (w : Str), (∀ c ∈ w, isWord c = true) → ∀ (rest : Str) (n : Nat),
      (w ++ rest).length ≤ n →
      subGo pat rep n true (w ++ rest) = w ++ subGo pat rep (n - w.length) true rest := by
  intro w
  induction w with
  | nil => intro _ rest n _; simp
  | cons c w2 ih =>
    intro hw rest n hn
    cases n with
    | zero => simp at hn
    | succ n =>
      rw [List.cons_append, subGo_step_prev_true, hw c (List.mem_cons_self _ _)]
      rw [ih (fun d hd => hw d (List.mem_cons_of_mem _ hd)) rest n
        (by simp only [List.length_append, List.length_cons] at hn ⊢; omega)]
      simp only [List.length_cons, List.cons_append]
      have harith : n - w2.length = n + 1 - (w2.length + 1) := by omega
      rw [harith]

end Transforms

namespace Transforms

theorem subGo_step_match {pat rep : Str} (hpat : pat ≠ [])
    (hpw : ∀ c ∈ pat, isWord c = true) {c : Char} {cs : Str}
    (hc : isWord c = true) (n : Nat)
    (hm : lowerS (c :: cs.takeWhile isWord) = lowerS pat) :
    subGo pat rep (n + 1) false (c :: cs) =
      rep ++ subGo pat rep n true (cs.dropWhile isWord) := by
  have hsplit : c :: cs = (c :: cs.takeWhile isWord) ++ cs.dropWhile isWord := by
    rw [List.cons_append, List.takeWhile_append_dropWhile]
  have hlen : (c :: cs.takeWhile isWord).length = pat.length := by
    have h2 := congrArg List.length hm
    rwa [lowerS_length, lowerS_length] at h2
  have htake : (c :: cs).take pat.length = c :: cs.takeWhile isWord := by
    conv_lhs => rw [hsplit]
    exact List.take_left' hlen
  have hdrop : (c :: cs).drop pat.length = cs.dropWhile isWord := by
    conv_lhs => rw [hsplit]
    exact List.drop_left' hlen
  have hbound : noWordAhead (cs.dropWhile isWord) = true := by
    cases hdw : cs.dropWhile isWord with
    | nil => rfl
    | cons d ds =>
      have hd : isWord d = false := head?_dropWhile_not (by rw [hdw]; rfl)
      simp [noWordAhead, hd]
  simp only [subGo]
  rw [if_pos, hdrop]
  rw [htake, hdrop, hm]
  simp [hbound]

theorem subGo_step_nomatch_w {pat rep : Str} (hpat : pat ≠ [])
    (hpw : ∀ c ∈ pat, isWord c = true) {c : Char} {cs : Str}
    (hc : isWord c = true)
    (hnm : lowerS (c :: cs.takeWhile isWord) ≠ lowerS pat) (n : Nat) :
    subGo pat rep (n + 1) false (c :: cs) = c :: subGo pat rep n (isWord c) cs := by
  simp only [subGo]
  rw [if_neg]
  intro hcond
  simp only [Bool.and_eq_true, beq_iff_eq] at hcond
  obtain ⟨⟨hprev, heq⟩, hbound⟩ := hcond
  have hTw : ∀ d ∈ (c :: cs).take pat.length, isWord d = true :=
    isWord_all_of_lowerS_eq hpw heq
  have hsplit : c :: cs = (c :: cs).take pat.length ++ (c :: cs).drop pat.length :=
    (List.take_append_drop _ _).symm
  have hrun : (c :: cs).takeWhile isWord = (c :: cs).take pat.length := by
    conv_lhs => rw [hsplit]
    rw [List.takeWhile_append_of_pos hTw]
    have hres : ((c :: cs).drop pat.length).takeWhile isWord = [] := by
      cases hdw : (c :: cs).drop pat.length with
      | nil => rfl
      | cons d ds =>
        rw [hdw] at hbound
        simp only [noWordAhead, Bool.not_eq_true'] at hbound
        exact List.takeWhile_cons_of_neg (by simp [hbound])
    rw [hres, List.append_nil]
  rw [List.takeWhile_cons_of_pos hc] at hrun
  exact hnm (by rw [hrun]; exact heq)

theorem subGo_eq_subWGo {pat rep : Str} (hpat : pat ≠ [])
    (hpw : ∀ c ∈ pat, isWord c = true) :
    ∀ (n : Nat) (s : Str), s.length ≤ n →
      subGo pat rep n false s = subWGo pat rep s.length s := by
  intro n
  induction n with
  | zero =>
    intro s hn
    cases s with
    | nil => rfl
    | cons c cs => simp at hn
  | succ n ih =>
    intro s hn
    cases s with
    | nil => rfl
    | cons c cs =>
      simp only [List.length_cons] at hn
      have hprevirr : ∀ (m : Nat) (b : Bool),
          subGo pat rep m b (cs.dropWhile isWord) =
          subGo pat rep m false (cs.dropWhile isWord) := by
        intro m b
        cases hdw : cs.dropWhile isWord with
        | nil => cases m <;> rfl
        | cons d ds =>
          have hd : isWord d = false := head?_dropWhile_not (by rw [hdw]; rfl)
          cases m with
          | zero => rfl
          | succ m =>
            rw [subGo_step_nomatch_nw hpat hpw hd, subGo_step_nomatch_nw hpat hpw hd]
      by_cases hc : isWord c = true
      · by_cases hm : lowerS (c :: cs.takeWhile isWord) = lowerS pat
        · rw [subGo_step_match hpat hpw hc n hm]
          show _ = subWGo pat rep (cs.length + 1) (c :: cs)
          simp only [subWGo]
          rw [if_pos hc]
          have hrepl : replRun pat rep (c :: cs.takeWhile isWord) = rep := by
            simp [replRun, hm]
          rw [hrepl]
          congr 1
          rw [hprevirr n true]
          rw [ih _ (Nat.le_trans (len_dropWhile_le _ _) (by omega))]
          exact subWGo_congr _ _ _ _ _ le_rfl (len_dropWhile_le _ _)
        · rw [subGo_step_nomatch_w hpat hpw hc hm n, hc]
          have hcs : cs = cs.takeWhile isWord ++ cs.dropWhile isWord :=
            (List.takeWhile_append_dropWhile _ _).symm
          have hlensum : (cs.takeWhile isWord).length +
              (cs.dropWhile isWord).length = cs.length := by
            conv_rhs => rw [hcs]
            rw [List.length_append]
          conv_lhs => rw [hcs]
          rw [subGo_walk pat rep _ (fun d hd => List.mem_takeWhile_imp hd) _ n
            (by rw [← hcs]; omega)]
          rw [hprevirr _ true]
          rw [subGo_congr pat rep hpat _ n false _ (by omega) (by omega)]
          rw [ih (cs.dropWhile isWord) (Nat.le_trans (len_dropWhile_le _ _) (by omega))]
          show _ = subWGo pat rep (cs.length + 1) (c :: cs)
          simp only [subWGo]
          rw [if_pos hc]
          have hrepl : replRun pat rep (c :: cs.takeWhile isWord) =
              c :: cs.takeWhile isWord := by
            simp [replRun, hm]
          rw [hrepl]
          rw [subWGo_congr pat rep cs.length _ (cs.dropWhile isWord)
            (len_dropWhile_le _ _) le_rfl]
          rw [List.cons_append]
      · have hc2 : isWord c = false := by
          revert hc
          cases isWord c <;> simp
        rw [subGo_step_nomatch_nw hpat hpw hc2 n false, hc2]
        rw [ih cs (by omega)]
        show _ = subWGo pat rep (cs.length + 1) (c :: cs)
        simp only [subWGo]
        rw [if_neg (by simp [hc2])]

theorem subB_eq_subW {pat rep : Str} (hpat : pat ≠ [])
    (hpw : ∀ c ∈ pat, isWord c = true) (s : Str) :
    subB pat rep s = subW pat rep s :=
  subGo_eq_subWGo hpat hpw s.length s le_rfl

theorem expand_eq_expandW (t : Str) : expand t = expandW t := by
  simp only [expand, expandW, expTab, List.foldl_cons, List.foldl_nil]
  rw [subB_eq_subW (by decide) (by decide)]
  rw [subB_eq_subW (by decide) (by decide)]
  rw [subB_eq_subW (by decide) (by decide)]
  rw [subB_eq_subW (by decide) (by decide)]
  rw [subB_eq_subW (by decide) (by decide)]
  rw [subB_eq_subW (by decide) (by decide)]

end Transforms

namespace Transforms

/-- C5: on every input with non-empty trim, `normalize_address` trims, then
applies the fixed ordered whole-word case-insensitive expansions
St→Street, Ave→Avenue, Rd→Road, Dr→Drive, Ln→Lane, Way→Way (declaratively:
each maximal word run equal to the pattern up to case is replaced — proved
equal to the scanner model of the `re.sub` calls), then splits on
whitespace (collapsing runs), capitalizes each token and rejoins with
single spaces.  The conjuncts check the claim's examples, that `"Street"`
and `"Stan"` are untouched, that the standalone word `st` is expanded in
any case, and that consecutive whitespace is collapsed. -/
theorem claim_C5_address_pipeline :
    (∀ s : Str, trim s ≠ [] →
      normalize_address (some s) =
        some (joinSp ((splitWs (expandW (trim s))).map capPy))) ∧
    normalize_address (some (str "123 Main St")) = some (str "123 Main Street") ∧
    normalize_address (some (str "789 pine rd")) = some (str "789 Pine Road") ∧
    normalize_address (some (str "x Street y")) = some (str "X Street Y") ∧
    normalize_address (some (str "x Stan y")) = some (str "X Stan Y") ∧
    normalize_address (some (str "x sT y")) = some (str "X Street Y") ∧
    normalize_address (some (str "a   b")) = some (str "A B") := by
  refine ⟨?_, by decide, by decide, by decide, by decide, by decide, by decide⟩
  intro s hs
  simp only [normalize_address, if_neg hs, expand_eq_expandW]

/-- Witness for C5 at a concrete input with surrounding whitespace. -/
theorem claim_C5_witness :
    trim (str "  789 pine rd  ") ≠ [] ∧
    normalize_address (some (str "  789 pine rd  ")) =
      some (joinSp ((splitWs (expandW (trim (str "  789 pine rd  ")))).map capPy)) :=
  ⟨by decide, claim_C5_address_pipeline.1 _ (by decide)⟩

end Transforms

namespace Transforms

theorem isWord_false_of_isWs {c : Char} (h : isWs c = true) : isWord c = false := by
  simp only [isWs, decide_eq_true_eq] at h
  simp only [isWord, decide_eq_false_iff_not]
  omega

theorem wordRuns_runs_ok : ∀ (s : Str), ∀ r ∈ wordRuns s,
    r ≠ [] ∧ ∀ c ∈ r, isWord c = true := by
  suffices h : ∀ (n : Nat) (s : Str), s.length ≤ n → ∀ r ∈ wordRuns s,
      r ≠ [] ∧ ∀ c ∈ r, isWord c = true from fun s => h s.length s le_rfl
  intro n
  induction n with
  | zero =>
    intro s hn r hr
    cases s with
    | nil => cases hr
    | cons c cs => simp at hn
  | succ n ih =>
    intro s hn r hr
    cases s with
    | nil => cases hr
    | cons c cs =>
      simp only [List.length_cons] at hn
      by_cases hc : isWord c = true
      · rw [wordRuns_cons_w hc] at hr
        rcases List.mem_cons.mp hr with rfl | hr2
        · refine ⟨by simp, ?_⟩
          intro d hd
          rcases List.mem_cons.mp hd with rfl | hd2
          · exact hc
          · exact List.mem_takeWhile_imp hd2
        · exact ih (cs.dropWhile isWord)
            (Nat.le_trans (len_dropWhile_le _ _) (by omega)) r hr2
      · have hc2 : isWord c = false := by
          revert hc
          cases isWord c <;> simp
        rw [wordRuns_cons_nw hc2] at hr
        exact ih cs (by omega) r hr

theorem wordRuns_all_word {r : Str} (hne : r ≠ [])
    (hw : ∀ c ∈ r, isWord c = true) : wordRuns r = [r] := by
  cases r with
  | nil => cases hne rfl
  | cons c cs =>
    rw [wordRuns_cons_w (hw c (List.mem_cons_self _ _))]
    have ht : cs.takeWhile isWord = cs :=
      List.takeWhile_eq_self_iff.mpr fun d hd => hw d (List.mem_cons_of_mem _ hd)
    have hd : cs.dropWhile isWord = [] :=
      List.dropWhile_eq_nil_iff.mpr fun d hd => hw d (List.mem_cons_of_mem _ hd)
    rw [ht, hd, wordRuns_nil]

theorem wordRuns_all_nonword : ∀ {g : Str},
    (∀ c ∈ g, isWord c = false) → wordRuns g = [] := by
  intro g
  induction g with
  | nil => intro _; rfl
  | cons c cs ih =>
    intro hg
    rw [wordRuns_cons_nw (hg c (List.mem_cons_self _ _))]
    exact ih fun d hd => hg d (List.mem_cons_of_mem _ hd)

theorem wordRuns_append_nw : ∀ (x z : Str),
    (z = [] ∨ ∃ d ds, z = d :: ds ∧ isWord d = false) →
    wordRuns (x ++ z) = wordRuns x ++ wordRuns z := by
  suffices h : ∀ (n : Nat) (x : Str), x.length ≤ n → ∀ (z : Str),
      (z = [] ∨ ∃ d ds, z = d :: ds ∧ isWord d = false) →
      wordRuns (x ++ z) = wordRuns x ++ wordRuns z from
    fun x z hz => h x.length x le_rfl z hz
  intro n
  induction n with
  | zero =>
    intro x hn z hz
    cases x with
    | nil => simp [wordRuns_nil]
    | cons c cs => simp at hn
  | succ n ih =>
    intro x hn z hz
    cases x with
    | nil => simp [wordRuns_nil]
    | cons c cs =>
      simp only [List.length_cons] at hn
      by_cases hc : isWord c = true
      · rw [List.cons_append, wordRuns_cons_w hc, wordRuns_cons_w hc]
        by_cases hall : ∀ d ∈ cs, isWord d = true
        · have ht1 : (cs ++ z).takeWhile isWord = cs := by
            rw [List.takeWhile_append_of_pos hall]
            have htz : z.takeWhile isWord = [] := by
              rcases hz with rfl | ⟨d, ds, rfl, hd⟩
              · rfl
              · exact List.takeWhile_cons_of_neg (by simp [hd])
            rw [htz, List.append_nil]
          have hd1 : (cs ++ z).dropWhile isWord = z := by
            rw [List.dropWhile_append_of_pos hall]
            rcases hz with rfl | ⟨d, ds, rfl, hd⟩
            · rfl
            · exact List.dropWhile_cons_of_neg (by simp [hd])
          have ht2 : cs.takeWhile isWord = cs :=
            List.takeWhile_eq_self_iff.mpr hall
          have hd2 : cs.dropWhile isWord = [] :=
            List.dropWhile_eq_nil_iff.mpr hall
          rw [ht1, hd1, ht2, hd2, wordRuns_nil]
          rfl
        · have ht1 : (cs ++ z).takeWhile isWord = cs.takeWhile isWord := by
            rw [List.takeWhile_append]
            rw [if_neg]
            intro hlen
            exact hall (List.takeWhile_eq_self_iff.mp
              ((List.takeWhile_sublist _).eq_of_length hlen))
          have hd1 : (cs ++ z).dropWhile isWord = cs.dropWhile isWord ++ z := by
            rw [List.dropWhile_append]
            rw [if_neg]
            intro hemp
            exact hall (List.dropWhile_eq_nil_iff.mp (List.isEmpty_iff.mp hemp))
          rw [ht1, hd1]
          rw [ih (cs.dropWhile isWord)
            (Nat.le_trans (len_dropWhile_le _ _) (by omega)) z hz]
          rfl
      · have hc2 : isWord c = false := by
          revert hc
          cases isWord c <;> simp
        rw [List.cons_append, wordRuns_cons_nw hc2, wordRuns_cons_nw hc2]
        exact ih cs (by omega) z hz

end Transforms

namespace Transforms

theorem takeWhile_lowerS {p : Char → Bool}
    (hp : ∀ c, p (Char.toLower c) = p c) (cs : Str) :
    (lowerS cs).takeWhile p = lowerS (cs.takeWhile p) := by
  induction cs with
  | nil => rfl
  | cons c cs ih =>
    simp only [lowerS, List.map_cons]
    by_cases hc : p c = true
    · rw [List.takeWhile_cons_of_pos (by rw [hp]; exact hc),
        List.takeWhile_cons_of_pos hc, List.map_cons]
      exact congrArg _ ih
    · rw [List.takeWhile_cons_of_neg (by rw [hp]; exact hc),
        List.takeWhile_cons_of_neg hc]
      rfl

theorem dropWhile_lowerS {p : Char → Bool}
    (hp : ∀ c, p (Char.toLower c) = p c) (cs : Str) :
    (lowerS cs).dropWhile p = lowerS (cs.dropWhile p) := by
  induction cs with
  | nil => rfl
  | cons c cs ih =>
    simp only [lowerS, List.map_cons]
    by_cases hc : p c = true
    · rw [List.dropWhile_cons_of_pos (by rw [hp]; exact hc),
        List.dropWhile_cons_of_pos hc]
      exact ih
    · rw [List.dropWhile_cons_of_neg (by rw [hp]; exact hc),
        List.dropWhile_cons_of_neg hc]
      rfl

theorem notWs_toLower (c : Char) : notWs (Char.toLower c) = notWs c := by
  simp [notWs, isWs_toLower]

theorem wordRuns_lowerS : ∀ s : Str, wordRuns (lowerS s) = (wordRuns s).map lowerS := by
  suffices h : ∀ (n : Nat) (s : Str), s.length ≤ n →
      wordRuns (lowerS s) = (wordRuns s).map lowerS from fun s => h s.length s le_rfl
  intro n
  induction n with
  | zero =>
    intro s hn
    cases s with
    | nil => rfl
    | cons c cs => simp at hn
  | succ n ih =>
    intro s hn
    cases s with
    | nil => rfl
    | cons c cs =>
      simp only [List.length_cons] at hn
      by_cases hc : isWord c = true
      · rw [show lowerS (c :: cs) = Char.toLower c :: lowerS cs from rfl]
        rw [wordRuns_cons_w (by rw [isWord_toLower]; exact hc), wordRuns_cons_w hc,
          List.map_cons]
        rw [takeWhile_lowerS isWord_toLower, dropWhile_lowerS isWord_toLower]
        rw [ih (cs.dropWhile isWord) (Nat.le_trans (len_dropWhile_le _ _) (by omega))]
        rfl
      · have hc2 : isWord c = false := by
          revert hc
          cases isWord c <;> simp
        rw [show lowerS (c :: cs) = Char.toLower c :: lowerS cs from rfl]
        rw [wordRuns_cons_nw (by rw [isWord_toLower]; exact hc2),
          wordRuns_cons_nw hc2]
        exact ih cs (by omega)

end Transforms

namespace Transforms

theorem splitWs_lowerS : ∀ y : Str, splitWs (lowerS y) = (splitWs y).map lowerS := by
  suffices h : ∀ (n : Nat) (y : Str), y.length ≤ n →
      splitWs (lowerS y) = (splitWs y).map lowerS from fun y => h y.length y le_rfl
  intro n
  induction n with
  | zero =>
    intro y hn
    cases y with
    | nil => rfl
    | cons c cs => simp at hn
  | succ n ih =>
    intro y hn
    cases y with
    | nil => rfl
    | cons c cs =>
      simp only [List.length_cons] at hn
      rw [show lowerS (c :: cs) = Char.toLower c :: lowerS cs from rfl]
      by_cases hc : isWs c = true
      · rw [splitWs_cons_ws (by rw [isWs_toLower]; exact hc), splitWs_cons_ws hc]
        exact ih cs (by omega)
      · have hc2 : isWs c = false := by
          revert hc
          cases isWs c <;> simp
        rw [splitWs_cons_tok (by rw [isWs_toLower]; exact hc2),
          splitWs_cons_tok hc2, List.map_cons]
        rw [takeWhile_lowerS notWs_toLower, dropWhile_lowerS notWs_toLower]
        rw [ih (cs.dropWhile notWs) (Nat.le_trans (len_dropWhile_le _ _) (by omega))]
        rfl

theorem lowerS_joinSp : ∀ toks : List Str,
    lowerS (joinSp toks) = joinSp (toks.map lowerS) := by
  intro toks
  induction toks with
  | nil => rfl
  | cons t ts ih =>
    cases ts with
    | nil => rfl
    | cons t2 ts2 =>
      rw [show joinSp (t :: t2 :: ts2) = t ++ ' ' :: joinSp (t2 :: ts2) from rfl]
      rw [show (t :: t2 :: ts2).map lowerS = lowerS t :: (t2 :: ts2).map lowerS from rfl]
      rw [show joinSp (lowerS t :: (t2 :: ts2).map lowerS) =
        lowerS t ++ ' ' :: joinSp ((t2 :: ts2).map lowerS) from by
          cases ts2 <;> rfl]
      rw [show lowerS (t ++ ' ' :: joinSp (t2 :: ts2)) =
        lowerS t ++ Char.toLower ' ' :: lowerS (joinSp (t2 :: ts2)) from by
          simp [lowerS]]
      rw [ih]
      rfl

theorem lowerS_capPy (t : Str) : lowerS (capPy t) = lowerS t := by
  cases t with
  | nil => rfl
  | cons c cs =>
    show Char.toLower (Char.toUpper c) :: (cs.map Char.toLower).map Char.toLower
      = Char.toLower c :: cs.map Char.toLower
    rw [toLower_toUpper, List.map_map]
    exact congrArg _ (List.map_congr_left fun a _ => toLower_toLower a)

theorem capPy_congr : ∀ {a b : Str}, lowerS a = lowerS b → capPy a = capPy b := by
  intro a b h
  cases a with
  | nil =>
    cases b with
    | nil => rfl
    | cons d ds => simp [lowerS] at h
  | cons c cs =>
    cases b with
    | nil => simp [lowerS] at h
    | cons d ds =>
      simp only [lowerS, List.map_cons, List.cons.injEq] at h
      show Char.toUpper c :: cs.map Char.toLower = Char.toUpper d :: ds.map Char.toLower
      rw [toUpper_congr_of_toLower h.1, h.2]

theorem capPy_capPy (t : Str) : capPy (capPy t) = capPy t :=
  capPy_congr (lowerS_capPy t)

theorem map_capPy_congr : ∀ {A B : List Str},
    A.map lowerS = B.map lowerS → A.map capPy = B.map capPy := by
  intro A
  induction A with
  | nil =>
    intro B h
    cases B with
    | nil => rfl
    | cons u us => simp at h
  | cons t ts ih =>
    intro B h
    cases B with
    | nil => simp at h
    | cons u us =>
      simp only [List.map_cons, List.cons.injEq] at h ⊢
      exact ⟨capPy_congr h.1, ih h.2⟩

end Transforms

namespace Transforms

theorem wordRuns_subW (pat rep : Str) (hrep : rep ≠ [])
    (hrepw : ∀ c ∈ rep, isWord c = true) :
    ∀ s : Str, wordRuns (subW pat rep s) = (wordRuns s).map (replRun pat rep) := by
  suffices h : ∀ (n : Nat) (s : Str), s.length ≤ n →
      wordRuns (subW pat rep s) = (wordRuns s).map (replRun pat rep) from
    fun s => h s.length s le_rfl
  intro n
  induction n with
  | zero =>
    intro s hn
    cases s with
    | nil => rfl
    | cons c cs => simp at hn
  | succ n ih =>
    intro s hn
    cases s with
    | nil => rfl
    | cons c cs =>
      simp only [List.length_cons] at hn
      by_cases hc : isWord c = true
      · rw [subW_cons_w hc, wordRuns_cons_w hc, List.map_cons]
        have hz : subW pat rep (cs.dropWhile isWord) = [] ∨
            ∃ d ds, subW pat rep (cs.dropWhile isWord) = d :: ds ∧ isWord d = false := by
          cases hdw : cs.dropWhile isWord with
          | nil =>
            left
            rfl
          | cons d ds =>
            have hd : isWord d = false := head?_dropWhile_not (by rw [hdw]; rfl)
            right
            exact ⟨d, subW pat rep ds, subW_cons_nw hd, hd⟩
        rw [wordRuns_append_nw _ _ hz]
        have hrun_ne : (c :: cs.takeWhile isWord) ≠ [] := by simp
        have hrun_w : ∀ d ∈ c :: cs.takeWhile isWord, isWord d = true := by
          intro d hd
          rcases List.mem_cons.mp hd with rfl | hd2
          · exact hc
          · exact List.mem_takeWhile_imp hd2
        have hrr : wordRuns (replRun pat rep (c :: cs.takeWhile isWord)) =
            [replRun pat rep (c :: cs.takeWhile isWord)] := by
          unfold replRun
          split
          · exact wordRuns_all_word hrep hrepw
          · exact wordRuns_all_word hrun_ne hrun_w
        rw [hrr, ih (cs.dropWhile isWord)
          (Nat.le_trans (len_dropWhile_le _ _) (by omega))]
        rfl
      · have hc2 : isWord c = false := by
          revert hc
          cases isWord c <;> simp
        rw [subW_cons_nw hc2, wordRuns_cons_nw hc2, wordRuns_cons_nw hc2]
        exact ih cs (by omega)

theorem lowerS_subW (pat rep : Str) :
    ∀ s : Str, (∀ r ∈ wordRuns s, lowerS r = lowerS pat → lowerS rep = lowerS r) →
      lowerS (subW pat rep s) = lowerS s := by
  suffices h : ∀ (n : Nat) (s : Str), s.length ≤ n →
      (∀ r ∈ wordRuns s, lowerS r = lowerS pat → lowerS rep = lowerS r) →
      lowerS (subW pat rep s) = lowerS s from fun s => h s.length s le_rfl
  intro n
  induction n with
  | zero =>
    intro s hn _
    cases s with
    | nil => rfl
    | cons c cs => simp at hn
  | succ n ih =>
    intro s hn hcond
    cases s with
    | nil => rfl
    | cons c cs =>
      simp only [List.length_cons] at hn
      by_cases hc : isWord c = true
      · rw [subW_cons_w hc]
        rw [show lowerS (replRun pat rep (c :: cs.takeWhile isWord) ++
            subW pat rep (cs.dropWhile isWord)) =
            lowerS (replRun pat rep (c :: cs.takeWhile isWord)) ++
            lowerS (subW pat rep (cs.dropWhile isWord)) from by simp [lowerS]]
        have hmem_run : (c :: cs.takeWhile isWord) ∈ wordRuns (c :: cs) := by
          rw [wordRuns_cons_w hc]
          exact List.mem_cons_self _ _
        have h1 : lowerS (replRun pat rep (c :: cs.takeWhile isWord)) =
            lowerS (c :: cs.takeWhile isWord) := by
          unfold replRun
          split
          · next hmatch => exact hcond _ hmem_run hmatch
          · rfl
        have hsub : ∀ r ∈ wordRuns (cs.dropWhile isWord),
            lowerS r = lowerS pat → lowerS rep = lowerS r := by
          intro r hr
          exact hcond r (by rw [wordRuns_cons_w hc]; exact List.mem_cons_of_mem _ hr)
        rw [h1, ih (cs.dropWhile isWord)
          (Nat.le_trans (len_dropWhile_le _ _) (by omega)) hsub]
        have hfinal : lowerS (c :: cs.takeWhile isWord) ++ lowerS (cs.dropWhile isWord) =
            lowerS (c :: cs) := by
          show (Char.toLower c :: List.map Char.toLower (cs.takeWhile isWord)) ++
            List.map Char.toLower (cs.dropWhile isWord) = _
          rw [List.cons_append, ← List.map_append, List.takeWhile_append_dropWhile]
          rfl
        rw [hfinal]
      · have hc2 : isWord c = false := by
          revert hc
          cases isWord c <;> simp
        rw [subW_cons_nw hc2]
        have hsub : ∀ r ∈ wordRuns cs,
            lowerS r = lowerS pat → lowerS rep = lowerS r := by
          intro r hr
          exact hcond r (by rw [wordRuns_cons_nw hc2]; exact hr)
        rw [show lowerS (c :: subW pat rep cs) =
          Char.toLower c :: lowerS (subW pat rep cs) from rfl]
        rw [ih cs (by omega) hsub]
        rfl

end Transforms

namespace Transforms

theorem lowerS_replRun (pat rep r : Str) :
    lowerS (replRun pat rep r) =
      if lowerS r = lowerS pat then lowerS rep else lowerS r := by
  unfold replRun
  split
  · rfl
  · rfl

theorem wordRuns_joinSp : ∀ toks : List Str,
    wordRuns (joinSp toks) = (toks.map wordRuns).flatten := by
  intro toks
  induction toks with
  | nil => rfl
  | cons t ts ih =>
    cases ts with
    | nil => simp [joinSp]
    | cons t2 ts2 =>
      rw [show joinSp (t :: t2 :: ts2) = t ++ ' ' :: joinSp (t2 :: ts2) from rfl]
      rw [wordRuns_append_nw _ _ (Or.inr ⟨' ', joinSp (t2 :: ts2), rfl, by decide⟩)]
      rw [wordRuns_cons_nw (by decide)]
      rw [ih]
      simp

theorem wordRuns_splitWs : ∀ y : Str,
    ((splitWs y).map wordRuns).flatten = wordRuns y := by
  suffices h : ∀ (n : Nat) (y : Str), y.length ≤ n →
      ((splitWs y).map wordRuns).flatten = wordRuns y from fun y => h y.length y le_rfl
  intro n
  induction n with
  | zero =>
    intro y hn
    cases y with
    | nil => rfl
    | cons c cs => simp at hn
  | succ n ih =>
    intro y hn
    cases y with
    | nil => rfl
    | cons c cs =>
      simp only [List.length_cons] at hn
      by_cases hc : isWs c = true
      · rw [splitWs_cons_ws hc, wordRuns_cons_nw (isWord_false_of_isWs hc)]
        exact ih cs (by omega)
      · have hc2 : isWs c = false := by
          revert hc
          cases isWs c <;> simp
        rw [splitWs_cons_tok hc2]
        have hz : cs.dropWhile notWs = [] ∨
            ∃ d ds, cs.dropWhile notWs = d :: ds ∧ isWord d = false := by
          cases hdw : cs.dropWhile notWs with
          | nil => exact Or.inl rfl
          | cons d ds =>
            have hd : notWs d = false := head?_dropWhile_not (by rw [hdw]; rfl)
            have hdws : isWs d = true := by
              revert hd
              simp [notWs]
            exact Or.inr ⟨d, ds, rfl, isWord_false_of_isWs hdws⟩
        have hsplit : c :: cs = (c :: cs.takeWhile notWs) ++ cs.dropWhile notWs := by
          rw [List.cons_append, List.takeWhile_append_dropWhile]
        conv_rhs => rw [hsplit]
        rw [wordRuns_append_nw _ _ hz]
        rw [List.map_cons, List.flatten_cons]
        rw [ih (cs.dropWhile notWs) (Nat.le_trans (len_dropWhile_le _ _) (by omega))]

end Transforms

namespace Transforms

theorem replChain_good (r0 : Str) :
    lowerS (replChain r0) ∈ goodLow ∨ lowerS (replChain r0) ∉ badLow := by
  unfold replChain
  by_cases h1 : lowerS r0 = lowerS (str "St")
  · rw [show replRun (str "St") (str "Street") r0 = str "Street" from by
      unfold replRun; rw [if_pos h1]]
    decide
  · rw [show replRun (str "St") (str "Street") r0 = r0 from by
      unfold replRun; rw [if_neg h1]]
    by_cases h2 : lowerS r0 = lowerS (str "Ave")
    · rw [show replRun (str "Ave") (str "Avenue") r0 = str "Avenue" from by
        unfold replRun; rw [if_pos h2]]
      decide
    · rw [show replRun (str "Ave") (str "Avenue") r0 = r0 from by
        unfold replRun; rw [if_neg h2]]
      by_cases h3 : lowerS r0 = lowerS (str "Rd")
      · rw [show replRun (str "Rd") (str "Road") r0 = str "Road" from by
          unfold replRun; rw [if_pos h3]]
        decide
      · rw [show replRun (str "Rd") (str "Road") r0 = r0 from by
          unfold replRun; rw [if_neg h3]]
        by_cases h4 : lowerS r0 = lowerS (str "Dr")
        · rw [show replRun (str "Dr") (str "Drive") r0 = str "Drive" from by
            unfold replRun; rw [if_pos h4]]
          decide
        · rw [show replRun (str "Dr") (str "Drive") r0 = r0 from by
            unfold replRun; rw [if_neg h4]]
          by_cases h5 : lowerS r0 = lowerS (str "Ln")
          · rw [show replRun (str "Ln") (str "Lane") r0 = str "Lane" from by
              unfold replRun; rw [if_pos h5]]
            decide
          · rw [show replRun (str "Ln") (str "Lane") r0 = r0 from by
              unfold replRun; rw [if_neg h5]]
            by_cases h6 : lowerS r0 = lowerS (str "Way")
            · rw [show replRun (str "Way") (str "Way") r0 = str "Way" from by
                unfold replRun; rw [if_pos h6]]
              decide
            · rw [show replRun (str "Way") (str "Way") r0 = r0 from by
                unfold replRun; rw [if_neg h6]]
              right
              intro hmem
              simp only [badLow, List.mem_cons, List.not_mem_nil, or_false] at hmem
              rcases hmem with hm | hm | hm | hm | hm | hm
              · exact h1 (hm.trans (by decide))
              · exact h2 (hm.trans (by decide))
              · exact h3 (hm.trans (by decide))
              · exact h4 (hm.trans (by decide))
              · exact h5 (hm.trans (by decide))
              · exact h6 (hm.trans (by decide))

set_option maxHeartbeats 1000000 in
theorem goodL_expandW (t : Str) : GoodL (expandW t) := by
  intro r hr
  rw [show expandW t = subW (str "Way") (str "Way") (subW (str "Ln") (str "Lane")
    (subW (str "Dr") (str "Drive") (subW (str "Rd") (str "Road")
    (subW (str "Ave") (str "Avenue") (subW (str "St") (str "Street") t))))) from by
      simp only [expandW, expTab, List.foldl_cons, List.foldl_nil]] at hr
  rw [wordRuns_lowerS] at hr
  rw [wordRuns_subW (str "Way") (str "Way") (by decide) (by decide)] at hr
  rw [wordRuns_subW (str "Ln") (str "Lane") (by decide) (by decide)] at hr
  rw [wordRuns_subW (str "Dr") (str "Drive") (by decide) (by decide)] at hr
  rw [wordRuns_subW (str "Rd") (str "Road") (by decide) (by decide)] at hr
  rw [wordRuns_subW (str "Ave") (str "Avenue") (by decide) (by decide)] at hr
  rw [wordRuns_subW (str "St") (str "Street") (by decide) (by decide)] at hr
  simp only [List.mem_map] at hr
  obtain ⟨a1, ⟨a2, ⟨a3, ⟨a4, ⟨a5, ⟨a6, ⟨a7, ha7, rfl⟩, rfl⟩, rfl⟩, rfl⟩, rfl⟩, rfl⟩, rfl⟩ := hr
  exact replChain_good a7

theorem cond_of_goodL (v pat rep : Str) (hg : GoodL v)
    (hgood : lowerS pat ∉ goodLow) (hbad : lowerS pat ∈ badLow) :
    ∀ r ∈ wordRuns v, lowerS r = lowerS pat → lowerS rep = lowerS r := by
  intro r hr hm
  have hrl : lowerS r ∈ wordRuns (lowerS v) := by
    rw [wordRuns_lowerS]
    exact List.mem_map_of_mem _ hr
  rcases hg (lowerS r) hrl with hin | hnin
  · rw [hm] at hin
    exact absurd hin hgood
  · rw [hm] at hnin
    exact absurd hbad hnin

theorem lowerS_expandW_of_goodL (u : Str) (hg : GoodL u) :
    lowerS (expandW u) = lowerS u := by
  have e1 : lowerS (subW (str "St") (str "Street") u) = lowerS u :=
    lowerS_subW _ _ u (cond_of_goodL u _ _ hg (by decide) (by decide))
  have g1 : GoodL (subW (str "St") (str "Street") u) := by
    intro r hr
    rw [e1] at hr
    exact hg r hr
  have e2 : lowerS (subW (str "Ave") (str "Avenue")
      (subW (str "St") (str "Street") u)) =
      lowerS (subW (str "St") (str "Street") u) :=
    lowerS_subW _ _ _ (cond_of_goodL _ _ _ g1 (by decide) (by decide))
  have g2 : GoodL (subW (str "Ave") (str "Avenue")
      (subW (str "St") (str "Street") u)) := by
    intro r hr
    rw [e2, e1] at hr
    exact hg r hr
  have e3 : lowerS (subW (str "Rd") (str "Road") (subW (str "Ave") (str "Avenue")
      (subW (str "St") (str "Street") u))) =
      lowerS (subW (str "Ave") (str "Avenue")
      (subW (str "St") (str "Street") u)) :=
    lowerS_subW _ _ _ (cond_of_goodL _ _ _ g2 (by decide) (by decide))
  have g3 : GoodL (subW (str "Rd") (str "Road") (subW (str "Ave") (str "Avenue")
      (subW (str "St") (str "Street") u))) := by
    intro r hr
    rw [e3, e2, e1] at hr
    exact hg r hr
  have e4 : lowerS (subW (str "Dr") (str "Drive") (subW (str "Rd") (str "Road")
      (subW (str "Ave") (str "Avenue") (subW (str "St") (str "Street") u)))) =
      lowerS (subW (str "Rd") (str "Road") (subW (str "Ave") (str "Avenue")
      (subW (str "St") (str "Street") u))) :=
    lowerS_subW _ _ _ (cond_of_goodL _ _ _ g3 (by decide) (by decide))
  have g4 : GoodL (subW (str "Dr") (str "Drive") (subW (str "Rd") (str "Road")
      (subW (str "Ave") (str "Avenue") (subW (str "St") (str "Street") u)))) := by
    intro r hr
    rw [e4, e3, e2, e1] at hr
    exact hg r hr
  have e5 : lowerS (subW (str "Ln") (str "Lane") (subW (str "Dr") (str "Drive")
      (subW (str "Rd") (str "Road") (subW (str "Ave") (str "Avenue")
      (subW (str "St") (str "Street") u))))) =
      lowerS (subW (str "Dr") (str "Drive") (subW (str "Rd") (str "Road")
      (subW (str "Ave") (str "Avenue") (subW (str "St") (str "Street") u)))) :=
    lowerS_subW _ _ _ (cond_of_goodL _ _ _ g4 (by decide) (by decide))
  have g5 : GoodL (subW (str "Ln") (str "Lane") (subW (str "Dr") (str "Drive")
      (subW (str "Rd") (str "Road") (subW (str "Ave") (str "Avenue")
      (subW (str "St") (str "Street") u))))) := by
    intro r hr
    rw [e5, e4, e3, e2, e1] at hr
    exact hg r hr
  have e6 : lowerS (subW (str "Way") (str "Way") (subW (str "Ln") (str "Lane")
      (subW (str "Dr") (str "Drive") (subW (str "Rd") (str "Road")
      (subW (str "Ave") (str "Avenue") (subW (str "St") (str "Street") u)))))) =
      lowerS (subW (str "Ln") (str "Lane") (subW (str "Dr") (str "Drive")
      (subW (str "Rd") (str "Road") (subW (str "Ave") (str "Avenue")
      (subW (str "St") (str "Street") u))))) :=
    lowerS_subW _ _ _ (by
      intro r hr hm
      rw [hm])
  exact e6.trans (e5.trans (e4.trans (e3.trans (e2.trans e1))))

end Transforms

namespace Transforms

theorem splitWs_tokens : ∀ y : Str, ∀ t ∈ splitWs y,
    t ≠ [] ∧ ∀ c ∈ t, isWs c = false := by
  suffices h : ∀ (n : Nat) (y : Str), y.length ≤ n → ∀ t ∈ splitWs y,
      t ≠ [] ∧ ∀ c ∈ t, isWs c = false from fun y => h y.length y le_rfl
  intro n
  induction n with
  | zero =>
    intro y hn t ht
    cases y with
    | nil => cases ht
    | cons c cs => simp at hn
  | succ n ih =>
    intro y hn t ht
    cases y with
    | nil => cases ht
    | cons c cs =>
      simp only [List.length_cons] at hn
      by_cases hc : isWs c = true
      · rw [splitWs_cons_ws hc] at ht
        exact ih cs (by omega) t ht
      · have hc2 : isWs c = false := by
          revert hc
          cases isWs c <;> simp
        rw [splitWs_cons_tok hc2] at ht
        rcases List.mem_cons.mp ht with rfl | ht2
        · refine ⟨by simp, ?_⟩
          intro d hd
          rcases List.mem_cons.mp hd with rfl | hd2
          · exact hc2
          · have := List.mem_takeWhile_imp hd2
            revert this
            simp [notWs]
        · exact ih (cs.dropWhile notWs)
            (Nat.le_trans (len_dropWhile_le _ _) (by omega)) t ht2

theorem capPy_tok {t : Str} (hne : t ≠ []) (hws : ∀ c ∈ t, isWs c = false) :
    capPy t ≠ [] ∧ ∀ c ∈ capPy t, isWs c = false := by
  cases t with
  | nil => cases hne rfl
  | cons c cs =>
    refine ⟨by simp [capPy], ?_⟩
    intro d hd
    rcases List.mem_cons.mp hd with rfl | hd2
    · rw [isWs_toUpper]
      exact hws c (List.mem_cons_self _ _)
    · obtain ⟨e, he, rfl⟩ := List.mem_map.mp hd2
      rw [isWs_toLower]
      exact hws e (List.mem_cons_of_mem _ he)

theorem mem_of_head? {l : Str} {c : Char} (h : l.head? = some c) : c ∈ l := by
  cases l with
  | nil => cases h
  | cons a as =>
    injection h with h2
    rw [← h2]
    exact List.mem_cons_self _ _

theorem joinSp_ne_nil : ∀ (toks : List Str), toks ≠ [] →
    (∀ t ∈ toks, t ≠ []) → joinSp toks ≠ [] := by
  intro toks
  induction toks with
  | nil => intro h; cases h rfl
  | cons t ts ih =>
    intro _ hall
    cases ts with
    | nil => exact hall t (List.mem_cons_self _ _)
    | cons t2 ts2 =>
      rw [show joinSp (t :: t2 :: ts2) = t ++ ' ' :: joinSp (t2 :: ts2) from rfl]
      cases ht : t with
      | nil => simp
      | cons a as => simp

theorem joinSp_head?_mem : ∀ (toks : List Str), (∀ t ∈ toks, t ≠ []) →
    ∀ c, (joinSp toks).head? = some c → ∃ t ∈ toks, t.head? = some c := by
  intro toks
  induction toks with
  | nil => intro _ c hc; cases hc
  | cons t ts ih =>
    intro hall c hc
    cases ts with
    | nil => exact ⟨t, List.mem_cons_self _ _, hc⟩
    | cons t2 ts2 =>
      rw [show joinSp (t :: t2 :: ts2) = t ++ ' ' :: joinSp (t2 :: ts2) from rfl] at hc
      obtain ⟨a, as, rfl⟩ : ∃ a as, t = a :: as := by
        cases t with
        | nil => exact absurd rfl (hall [] (List.mem_cons_self _ _))
        | cons a as => exact ⟨a, as, rfl⟩
      rw [List.cons_append] at hc
      injection hc with h2
      exact ⟨a :: as, List.mem_cons_self _ _, by rw [h2]; rfl⟩

theorem joinSp_getLast?_mem : ∀ (toks : List Str), (∀ t ∈ toks, t ≠ []) →
    ∀ c, (joinSp toks).getLast? = some c → ∃ t ∈ toks, t.getLast? = some c := by
  intro toks
  induction toks with
  | nil => intro _ c hc; cases hc
  | cons t ts ih =>
    intro hall c hc
    cases ts with
    | nil => exact ⟨t, List.mem_cons_self _ _, hc⟩
    | cons t2 ts2 =>
      rw [show joinSp (t :: t2 :: ts2) = t ++ ' ' :: joinSp (t2 :: ts2) from rfl] at hc
      rw [List.getLast?_append] at hc
      have hjne : joinSp (t2 :: ts2) ≠ [] :=
        joinSp_ne_nil _ (by simp) fun u hu => hall u (List.mem_cons_of_mem _ hu)
      have hgl : (' ' :: joinSp (t2 :: ts2)).getLast? = (joinSp (t2 :: ts2)).getLast? := by
        cases hj : joinSp (t2 :: ts2) with
        | nil => cases hjne hj
        | cons b bs => exact List.getLast?_cons_cons
      rw [hgl] at hc
      obtain ⟨d, hd⟩ := getLast?_some_of_ne_nil hjne
      rw [hd] at hc
      simp only [Option.or_some, Option.some.injEq] at hc
      subst hc
      obtain ⟨u, hu, hu2⟩ := ih (fun u hu => hall u (List.mem_cons_of_mem _ hu)) d hd
      exact ⟨u, List.mem_cons_of_mem _ hu, hu2⟩

theorem subW_head (pat rep : Str) (hrep : rep ≠ [])
    (hrepw : ∀ c ∈ rep, isWord c = true) :
    ∀ {v : Str} {c0 : Char}, v.head? = some c0 → isWs c0 = false →
    ∃ d, (subW pat rep v).head? = some d ∧ isWs d = false := by
  intro v c0 hv hc0
  cases v with
  | nil => cases hv
  | cons c cs =>
    injection hv with hv2
    rw [← hv2] at hc0
    by_cases hc : isWord c = true
    · rw [subW_cons_w hc]
      unfold replRun
      split
      · cases rep with
        | nil => cases hrep rfl
        | cons r0 rs =>
          exact ⟨r0, rfl, not_isWs_of_isWord (hrepw r0 (List.mem_cons_self _ _))⟩
      · exact ⟨c, rfl, hc0⟩
    · have hc2 : isWord c = false := by
        revert hc
        cases isWord c <;> simp
      rw [subW_cons_nw hc2]
      exact ⟨c, rfl, hc0⟩

theorem expandW_head {t : Str} {c0 : Char}
    (ht : t.head? = some c0) (hc0 : isWs c0 = false) :
    ∃ d, (expandW t).head? = some d ∧ isWs d = false := by
  obtain ⟨d1, hd1, hw1⟩ := subW_head (str "St") (str "Street") (by decide) (by decide) ht hc0
  obtain ⟨d2, hd2, hw2⟩ := subW_head (str "Ave") (str "Avenue") (by decide) (by decide) hd1 hw1
  obtain ⟨d3, hd3, hw3⟩ := subW_head (str "Rd") (str "Road") (by decide) (by decide) hd2 hw2
  obtain ⟨d4, hd4, hw4⟩ := subW_head (str "Dr") (str "Drive") (by decide) (by decide) hd3 hw3
  obtain ⟨d5, hd5, hw5⟩ := subW_head (str "Ln") (str "Lane") (by decide) (by decide) hd4 hw4
  obtain ⟨d6, hd6, hw6⟩ := subW_head (str "Way") (str "Way") (by decide) (by decide) hd5 hw5
  exact ⟨d6, by
    rw [show expandW t = subW (str "Way") (str "Way") (subW (str "Ln") (str "Lane")
      (subW (str "Dr") (str "Drive") (subW (str "Rd") (str "Road")
      (subW (str "Ave") (str "Avenue") (subW (str "St") (str "Street") t))))) from by
        simp only [expandW, expTab, List.foldl_cons, List.foldl_nil]]
    exact hd6, hw6⟩

theorem splitWs_ne_nil {y : Str} {d : Char}
    (hy : y.head? = some d) (hd : isWs d = false) : splitWs y ≠ [] := by
  cases y with
  | nil => cases hy
  | cons c cs =>
    injection hy with h2
    subst h2
    rw [splitWs_cons_tok hd]
    simp

end Transforms

namespace Transforms

theorem splitWs_joinSp : ∀ toks : List Str,
    (∀ t ∈ toks, t ≠ [] ∧ ∀ c ∈ t, isWs c = false) →
    splitWs (joinSp toks) = toks := by
  intro toks
  induction toks with
  | nil => intro _; rfl
  | cons t ts ih =>
    intro hall
    obtain ⟨a, as, rfl⟩ : ∃ a as, t = a :: as := by
      cases t with
      | nil => exact absurd rfl (hall [] (List.mem_cons_self _ _)).1
      | cons a as => exact ⟨a, as, rfl⟩
    have hfacts := hall (a :: as) (List.mem_cons_self _ _)
    have hc2 : isWs a = false := hfacts.2 a (List.mem_cons_self _ _)
    have has : ∀ c ∈ as, isWs c = false :=
      fun c hc => hfacts.2 c (List.mem_cons_of_mem _ hc)
    cases ts with
    | nil =>
      rw [show joinSp [a :: as] = a :: as from rfl]
      rw [splitWs_cons_tok hc2]
      have h1 : as.takeWhile notWs = as :=
        List.takeWhile_eq_self_iff.mpr fun c hc => by simp [notWs, has c hc]
      have h2 : as.dropWhile notWs = [] :=
        List.dropWhile_eq_nil_iff.mpr fun c hc => by simp [notWs, has c hc]
      rw [h1, h2, splitWs_nil]
    | cons t2 ts2 =>
      rw [show joinSp ((a :: as) :: t2 :: ts2) =
        (a :: as) ++ ' ' :: joinSp (t2 :: ts2) from rfl]
      rw [List.cons_append]
      rw [splitWs_cons_tok hc2]
      have h1 : (as ++ ' ' :: joinSp (t2 :: ts2)).takeWhile notWs = as := by
        rw [List.takeWhile_append_of_pos fun c hc => by simp [notWs, has c hc]]
        rw [List.takeWhile_cons_of_neg (by decide)]
        rw [List.append_nil]
      have h2 : (as ++ ' ' :: joinSp (t2 :: ts2)).dropWhile notWs =
          ' ' :: joinSp (t2 :: ts2) := by
        rw [List.dropWhile_append_of_pos fun c hc => by simp [notWs, has c hc]]
        rw [List.dropWhile_cons_of_neg (by decide)]
      rw [h1, h2]
      rw [splitWs_cons_ws (by decide)]
      rw [ih fun u hu => hall u (List.mem_cons_of_mem _ hu)]

theorem goodL_pipeline (e : Str) (hg : GoodL e) :
    GoodL (joinSp ((splitWs e).map capPy)) := by
  intro r hr
  rw [lowerS_joinSp] at hr
  have hmm : ((splitWs e).map capPy).map lowerS = (splitWs e).map lowerS := by
    rw [List.map_map]
    exact List.map_congr_left fun t _ => lowerS_capPy t
  rw [hmm, ← splitWs_lowerS] at hr
  rw [wordRuns_joinSp, wordRuns_splitWs] at hr
  exact hg r hr

end Transforms

namespace Transforms

set_option maxHeartbeats 2000000 in
theorem addr_idem (x : Option Str) (v : Str)
    (h : normalize_address x = some v) : normalize_address (some v) = some v := by
  cases x with
  | none => cases h
  | some s =>
    simp only [normalize_address] at h
    by_cases ht : trim s = []
    · rw [if_pos ht] at h
      cases h
    · rw [if_neg ht] at h
      have hv : v = joinSp ((splitWs (expand (trim s))).map capPy) := by
        injection h with h2
        exact h2.symm
      subst hv
      rw [expand_eq_expandW]
      have htoksfacts : ∀ t ∈ (splitWs (expandW (trim s))).map capPy,
          t ≠ [] ∧ ∀ c ∈ t, isWs c = false := by
        intro t htm
        obtain ⟨u, hu, rfl⟩ := List.mem_map.mp htm
        have hu2 := splitWs_tokens _ u hu
        exact capPy_tok hu2.1 hu2.2
      obtain ⟨c0, hc0head, hc0⟩ : ∃ c0, (trim s).head? = some c0 ∧ isWs c0 = false := by
        cases htr : trim s with
        | nil => cases ht htr
        | cons a b => exact ⟨a, rfl, head?_trim_not_ws (by rw [htr]; rfl)⟩
      obtain ⟨d0, hd0, hd0w⟩ := expandW_head hc0head hc0
      have hsne : splitWs (expandW (trim s)) ≠ [] := splitWs_ne_nil hd0 hd0w
      have htne : (splitWs (expandW (trim s))).map capPy ≠ [] := by
        intro hnil
        exact hsne (List.map_eq_nil_iff.mp hnil)
      have hvne : joinSp ((splitWs (expandW (trim s))).map capPy) ≠ [] :=
        joinSp_ne_nil _ htne fun t htm => (htoksfacts t htm).1
      have hvtrim : trim (joinSp ((splitWs (expandW (trim s))).map capPy)) =
          joinSp ((splitWs (expandW (trim s))).map capPy) := by
        apply trim_eq_self
        · intro c hc
          obtain ⟨t, htm, hth⟩ :=
            joinSp_head?_mem _ (fun t h2 => (htoksfacts t h2).1) c hc
          exact (htoksfacts t htm).2 c (mem_of_head? hth)
        · intro c hc
          obtain ⟨t, htm, hth⟩ :=
            joinSp_getLast?_mem _ (fun t h2 => (htoksfacts t h2).1) c hc
          exact (htoksfacts t htm).2 c (mem_of_getLast? hth)
      have hgv : GoodL (joinSp ((splitWs (expandW (trim s))).map capPy)) :=
        goodL_pipeline _ (goodL_expandW (trim s))
      simp only [normalize_address]
      rw [hvtrim, if_neg hvne]
      rw [expand_eq_expandW]
      have hkey : (splitWs (expandW (joinSp
            ((splitWs (expandW (trim s))).map capPy)))).map capPy =
          (splitWs (joinSp ((splitWs (expandW (trim s))).map capPy))).map capPy := by
        apply map_capPy_congr
        rw [← splitWs_lowerS, ← splitWs_lowerS]
        rw [lowerS_expandW_of_goodL _ hgv]
      rw [hkey]
      rw [splitWs_joinSp _ htoksfacts]
      rw [List.map_map]
      have hcc : List.map (capPy ∘ capPy) (splitWs (expandW (trim s))) =
          List.map capPy (splitWs (expandW (trim s))) :=
        List.map_congr_left fun t _ => capPy_capPy t
      rw [hcc]

/-- C7: each of `normalize_email`, `normalize_phone` and
`normalize_address` is idempotent on valid inputs: whenever it returns a
present value `v`, applying the same function to `v` returns `v` again. -/
theorem claim_C7_idempotent :
    (∀ (x : Option Str) (v : Str), normalize_email x = some v →
      normalize_email (some v) = some v) ∧
    (∀ (x : Option Str) (v : Str), normalize_phone x = some v →
      normalize_phone (some v) = some v) ∧
    (∀ (x : Option Str) (v : Str), normalize_address x = some v →
      normalize_address (some v) = some v) :=
  ⟨email_idem, phone_idem, addr_idem⟩

/-- Witness for C7: each normalizer applied to a concrete output of its own
is the identity on that output. -/
theorem claim_C7_witness :
    normalize_email (some (str "  JOHN@EXAMPLE.COM  ")) = some (str "john@example.com") ∧
    normalize_email (some (str "john@example.com")) = some (str "john@example.com") ∧
    normalize_phone (some (str "555-123-4568")) = some (str "(555) 123-4568") ∧
    normalize_phone (some (str "(555) 123-4568")) = some (str "(555) 123-4568") ∧
    normalize_address (some (str "123 main st")) = some (str "123 Main Street") ∧
    normalize_address (some (str "123 Main Street")) = some (str "123 Main Street") := by
  refine ⟨by decide, claim_C7_idempotent.1 (some (str "  JOHN@EXAMPLE.COM  "))
      (str "john@example.com") (by decide), by decide,
    claim_C7_idempotent.2.1 (some (str "555-123-4568"))
      (str "(555) 123-4568") (by decide), by decide,
    claim_C7_idempotent.2.2 (some (str "123 main st"))
      (str "123 Main Street") (by decide)⟩

end Transforms
